import Mathlib

/-!
# Shared-group coordination (`src/tightdb/group_shared.cpp`)

A shallow embedding of the transaction coordinator of `group_shared.cpp`:
the process-shared record `SharedInfo` with its reader ledger (a ring
buffer of `ReadCount` slots), the per-handle object `SharedGroup`, and the
four transaction calls `start_read`, `end_read`, `start_write`, `end_write`.

Conventions of the embedding.

* `uint32_t` and `uint64_t` fields are natural numbers; every arithmetic
  operation of the source that can wrap is written with an explicit
  reduction modulo `2^32` (`add32`, `sub32`).  `size_t` is 64 bits wide.
* `assert` is enabled: a failing assertion ends the call, and the outcome
  records the source line of the assertion and the state at that moment.
* A reference `readers[i]` with `i >= 32`, taken by `ringbuf_get`,
  `ringbuf_get_first` or `ringbuf_get_last`, is outside the array; the
  embedding ends the call there with `Fault.out_of_bounds`.  The store of
  `ringbuf_put` goes on as in the source: `readers` is the last member of the
  record, and a store at `readers[32 + i]` lands in the memory after it
  (`SharedInfo.past`).
* A `pthread_mutex_t` is a Boolean (`true` = held).  Locking a held mutex
  does not return (`Outcome.blocked`).
* The two `while` loops carry a fuel of `2^32`: their only loop variable is
  one `uint32_t`, so a loop that has not left after `2^32` rounds has
  revisited a value and never leaves (`diverges`).
-/

namespace tightdb

/-! ## Machine arithmetic -/

/-- Number of values of a `uint32_t`. -/
def UINT32_MOD : Nat := 4294967296

/-- The value `(uint32_t)-1`, the "no active read" marker of `m_version`. -/
def UINT32_MAX : Nat := 4294967295

/-- The value `(size_t)-1` with a 64-bit `size_t`, the not-found result of `ringbuf_find`. -/
def SIZE_MAX : Nat := 18446744073709551615

/-- Addition of two `uint32_t` values. -/
def add32 (a b : Nat) : Nat := (a + b) % UINT32_MOD

/-- Subtraction of two `uint32_t` values (`b` is below `2^32`). -/
def sub32 (a b : Nat) : Nat := (UINT32_MOD + a - b) % UINT32_MOD

/-! ## Data model -/

/-- The record `struct ReadCount` (lines 16-19). -/
structure ReadCount where
  version : Nat
  count : Nat
deriving DecidableEq

/-- The record `struct SharedInfo` (lines 21-34); `capacity` holds the mask `32-1`.
`readers` is the last member of the record, so `readers[32 + i]` designates memory that
follows the record in the mapping: `past i` is that memory. -/
structure SharedInfo where
  readmutex : Bool
  writemutex : Bool
  filesize : Nat
  infosize : Nat
  current_top : Nat
  current_version : Nat
  capacity : Nat
  put_pos : Nat
  get_pos : Nat
  readers : Fin 32 → ReadCount
  past : Nat → ReadCount

/-- Modelled from the spec: the store collaborator (`Group` with its `SlabAlloc`), whose
class is declared outside `group_shared.cpp`.  The spec lists what the coordinator consumes:
`get_top_ref()`, `get_file_length()`, `refresh_view(top, size)` and
`commit() -> (new_top, new_size)`; the record holds the top reference and file length the
handle's private view currently stands at. -/
structure Group where
  topref : Nat
  filelen : Nat
deriving DecidableEq

/-- Modelled from the spec: `refresh_view(top, size)` (`Group::update_from_shared`) moves
the private view to the given snapshot and touches nothing shared. -/
def Group.update_from_shared (_g : Group) (top size : Nat) : Group :=
  { topref := top, filelen := size }

/-- Modelled from the spec: `commit() -> (new_top, new_size)`; the store chooses the new
top reference and file length, which the embedding takes as arguments. -/
def Group.commit (_g : Group) (new_top new_size : Nat) : Group :=
  { topref := new_top, filelen := new_size }

/-- The per-handle object `SharedGroup`: its private `m_group` and `m_version`
(`m_info` is the shared record, passed separately). -/
structure SharedGroup where
  m_group : Group
  m_version : Nat
deriving DecidableEq

/-- Reasons for which a call ends without returning. -/
inductive Fault where
  | assertion (line : Nat)
  | out_of_bounds
deriving DecidableEq

/-- Result of a `const` member function that computes a value. -/
inductive Res (α : Type) where
  | val (a : α)
  | fault (f : Fault)
  | diverges
deriving DecidableEq

/-- Result of a call that works on a state: it returned, it died on a fault (with the
state at that moment), it waits for a mutex, or it loops forever. -/
inductive Outcome (σ : Type) where
  | returned (s : σ)
  | aborted (f : Fault) (s : σ)
  | blocked (s : σ)
  | diverges (s : σ)

/-! ## The ledger (lines 205-269) -/

/-- Lines 210-213: `(put_pos - get_pos) & capacity`. -/
def ringbuf_size (m : SharedInfo) : Nat :=
  sub32 m.put_pos m.get_pos &&& m.capacity

/-- Lines 205-208. -/
def ringbuf_is_empty (m : SharedInfo) : Bool :=
  ringbuf_size m == 0

/-- Lines 215-218: `capacity+1`, computed in `uint32_t`. -/
def ringbuf_capacity (m : SharedInfo) : Nat :=
  add32 m.capacity 1

/-- Lines 220-222. -/
def ringbuf_is_first (m : SharedInfo) (ndx : Nat) : Bool :=
  ndx == m.get_pos

/-- Lines 224-227: the reference `readers[ndx]`, as the slot it designates; `none` when
`ndx` is outside the 32-slot array. -/
def ringbuf_get (ndx : Nat) : Option (Fin 32) :=
  if h : ndx < 32 then some ⟨ndx, h⟩ else none

/-- Lines 229-232: the reference `readers[get_pos]`. -/
def ringbuf_get_first (m : SharedInfo) : Option (Fin 32) :=
  ringbuf_get m.get_pos

/-- Lines 234-238: the reference `readers[(put_pos - 1) & capacity]`. -/
def ringbuf_get_last (m : SharedInfo) : Option (Fin 32) :=
  ringbuf_get (sub32 m.put_pos 1 &&& m.capacity)

/-- Lines 240-242. -/
def ringbuf_remove_first (m : SharedInfo) : SharedInfo :=
  { m with get_pos := add32 m.get_pos 1 &&& m.capacity }

/-- Lines 244-255.  The store of line 253 has no bounds check: with `put_pos` inside the
array it writes that slot, with `put_pos` beyond the array it writes the memory after the
record; line 254 advances `put_pos` either way. -/
def ringbuf_put (m : SharedInfo) (v : ReadCount) : Outcome SharedInfo :=
  let isFull : Bool := ringbuf_size m == add32 m.capacity 1
  if isFull then .aborted (.assertion 250) m
  else
    match ringbuf_get m.put_pos with
    | none =>
      .returned { m with past := Function.update m.past (m.put_pos - 32) v,
                         put_pos := add32 m.put_pos 1 &&& m.capacity }
    | some p =>
      .returned { m with readers := Function.update m.readers p v,
                         put_pos := add32 m.put_pos 1 &&& m.capacity }

/-- The `while` loop of `ringbuf_find` (lines 260-266), started at `pos`. -/
def ringbuf_find_loop (m : SharedInfo) (version : Nat) : Nat → Nat → Res Nat
  | 0, _ => .diverges
  | fuel + 1, pos =>
    if pos ≠ m.put_pos then
      match ringbuf_get pos with
      | none => .fault .out_of_bounds
      | some r =>
        if (m.readers r).version = version then .val pos
        else ringbuf_find_loop m version fuel (add32 pos 1 &&& m.capacity)
    else .val SIZE_MAX

/-- Lines 257-269. -/
def ringbuf_find (m : SharedInfo) (version : Nat) : Res Nat :=
  ringbuf_find_loop m version UINT32_MOD m.get_pos

/-! ## Transactions (lines 74-203) -/

/-- The mapped coordination file of a first opener: `ftruncate` has extended the empty
file, so every byte of the record reads zero. -/
def SharedInfo.zeroed : SharedInfo :=
  { readmutex := false, writemutex := false, filesize := 0, infosize := 0,
    current_top := 0, current_version := 0, capacity := 0, put_pos := 0, get_pos := 0,
    readers := fun _ => { version := 0, count := 0 },
    past := fun _ => { version := 0, count := 0 } }

/-- Lines 74-88: the initialization block of the constructor, run on the mapped record
`m` with the handle's store `alloc` and the mapping length `len`. -/
def SharedGroup_init (m : SharedInfo) (alloc : Group) (len : Nat) : Outcome SharedInfo :=
  if m.readmutex then .blocked m
  else
    .returned { m with readmutex := false,
                       filesize := alloc.filelen,
                       infosize := len % UINT32_MOD,
                       current_top := alloc.topref,
                       current_version := 0,
                       capacity := 32 - 1,
                       put_pos := 0,
                       get_pos := 0 }

/-- The shared record a first opener leaves behind: the zeroed mapping after the
initialization block. -/
def initialized (alloc : Group) (len : Nat) : SharedInfo :=
  { SharedInfo.zeroed with filesize := alloc.filelen,
                           infosize := len % UINT32_MOD,
                           current_top := alloc.topref,
                           current_version := 0,
                           capacity := 32 - 1,
                           put_pos := 0,
                           get_pos := 0 }

/-- Line 36: a handle right after construction (`m_version(-1)`). -/
def SharedGroup.fresh (store : Group) : SharedGroup :=
  { m_group := store, m_version := UINT32_MAX }

/-- Lines 112-125: the ledger update of `start_read`, inside the critical section. -/
def start_read_update (m : SharedInfo) : Outcome SharedInfo :=
  if ringbuf_is_empty m then
    ringbuf_put m { version := m.current_version, count := 1 }
  else
    match ringbuf_get_last m with
    | none => .aborted .out_of_bounds m
    | some r =>
      if (m.readers r).version = m.current_version then
        let bumped : ReadCount := ⟨(m.readers r).version, add32 (m.readers r).count 1⟩
        .returned { m with readers := Function.update m.readers r bumped }
      else
        ringbuf_put m { version := m.current_version, count := 1 }

/-- Lines 100-133. -/
def start_read (m : SharedInfo) (g : SharedGroup) : Outcome (SharedInfo × SharedGroup) :=
  if m.readmutex then .blocked (m, g)
  else
    let m1 := { m with readmutex := true }
    let new_topref := m1.current_top
    let new_filesize := m1.filesize
    let g1 := { g with m_version := m1.current_version }
    match start_read_update m1 with
    | .returned m2 =>
      .returned ({ m2 with readmutex := false },
                 { g1 with m_group := g1.m_group.update_from_shared new_topref new_filesize })
    | .aborted f m2 => .aborted f (m2, g1)
    | .blocked m2 => .blocked (m2, g1)
    | .diverges m2 => .diverges (m2, g1)

/-- Lines 149-151: the compaction loop of `end_read`. -/
def end_read_compact : Nat → SharedInfo → Outcome SharedInfo
  | 0, m => .diverges m
  | fuel + 1, m =>
    if ringbuf_is_empty m then .returned m
    else
      match ringbuf_get_first m with
      | none => .aborted .out_of_bounds m
      | some r =>
        if (m.readers r).count = 0 then end_read_compact fuel (ringbuf_remove_first m)
        else .returned m

/-- Lines 141-156: the critical section of `end_read` for the handle version `version`. -/
def end_read_update (m : SharedInfo) (version : Nat) : Outcome SharedInfo :=
  match ringbuf_find m version with
  | .diverges => .diverges m
  | .fault f => .aborted f m
  | .val ndx =>
    if ndx = SIZE_MAX then .aborted (.assertion 143) m
    else
      match ringbuf_get ndx with
      | none => .aborted .out_of_bounds m
      | some r =>
        if (m.readers r).count = 1 ∧ ringbuf_is_first m ndx = true then
          end_read_compact UINT32_MOD (ringbuf_remove_first m)
        else if (m.readers r).count > 0 then
          let lowered : ReadCount := ⟨(m.readers r).version, (m.readers r).count - 1⟩
          .returned { m with readers := Function.update m.readers r lowered }
        else .aborted (.assertion 154) m

/-- Lines 135-161. -/
def end_read (m : SharedInfo) (g : SharedGroup) : Outcome (SharedInfo × SharedGroup) :=
  if g.m_version = UINT32_MAX then .aborted (.assertion 137) (m, g)
  else if m.readmutex then .blocked (m, g)
  else
    match end_read_update { m with readmutex := true } g.m_version with
    | .returned m2 =>
      .returned ({ m2 with readmutex := false }, { g with m_version := UINT32_MAX })
    | .aborted f m2 => .aborted f (m2, g)
    | .blocked m2 => .blocked (m2, g)
    | .diverges m2 => .diverges (m2, g)

/-- Lines 163-181. -/
def start_write (m : SharedInfo) (g : SharedGroup) : Outcome (SharedInfo × SharedGroup) :=
  if m.writemutex then .blocked (m, g)
  else
    let m1 := { m with writemutex := true }
    let new_topref := m1.current_top
    let new_filesize := m1.filesize
    if new_topref ≠ 0 then
      .returned (m1, { g with m_group := g.m_group.update_from_shared new_topref new_filesize })
    else .returned (m1, g)

/-- Lines 183-203; `new_top` and `new_size` are what the store reports after `commit()`. -/
def end_write (m : SharedInfo) (g : SharedGroup) (new_top new_size : Nat) :
    Outcome (SharedInfo × SharedGroup) :=
  let g1 := { g with m_group := g.m_group.commit new_top new_size }
  let new_topref := g1.m_group.topref
  let new_filesize := g1.m_group.filelen
  if m.readmutex then .blocked (m, g1)
  else
    .returned ({ m with readmutex := false,
                        current_top := new_topref,
                        filesize := new_filesize,
                        current_version := add32 m.current_version 1,
                        writemutex := false }, g1)

/-! ## Several handles on one shared record -/

/-- One shared record and the handles opened on it, by handle number. -/
structure System where
  info : SharedInfo
  handles : Nat → SharedGroup

/-- A call by handle `h`. -/
inductive Op where
  | start_read (h : Nat)
  | end_read (h : Nat)
  | start_write (h : Nat)
  | end_write (h : Nat) (new_top new_size : Nat)
deriving DecidableEq

/-- Put the outcome of a call by handle `h` back into the system. -/
def System.absorb (s : System) (h : Nat) :
    Outcome (SharedInfo × SharedGroup) → Outcome System
  | .returned (m, g) => .returned { info := m, handles := Function.update s.handles h g }
  | .aborted f (m, g) => .aborted f { info := m, handles := Function.update s.handles h g }
  | .blocked (m, g) => .blocked { info := m, handles := Function.update s.handles h g }
  | .diverges (m, g) => .diverges { info := m, handles := Function.update s.handles h g }

/-- One call on the system. -/
def System.step (s : System) : Op → Outcome System
  | .start_read h => s.absorb h (start_read s.info (s.handles h))
  | .end_read h => s.absorb h (end_read s.info (s.handles h))
  | .start_write h => s.absorb h (start_write s.info (s.handles h))
  | .end_write h new_top new_size =>
    s.absorb h (end_write s.info (s.handles h) new_top new_size)

/-- A sequence of calls, one after the other; it ends at the first call that does not
return. -/
def System.run (s : System) : List Op → Outcome System
  | [] => .returned s
  | op :: ops =>
    match s.step op with
    | .returned s1 => s1.run ops
    | o => o

/-- The system a first opener creates: the initialized record, every handle freshly
constructed on the store `alloc`. -/
def System.initial (alloc : Group) (len : Nat) : System :=
  { info := initialized alloc len, handles := fun _ => SharedGroup.fresh alloc }

/-- The state an outcome carries. -/
def Outcome.state {σ : Type} : Outcome σ → σ
  | .returned s => s
  | .aborted _ s => s
  | .blocked s => s
  | .diverges s => s

/-- Whether a call returned. -/
def Outcome.isReturned {σ : Type} : Outcome σ → Bool
  | .returned _ => true
  | _ => false

/-! ## The loops of `test_ringbuf` -/

/-- The fill loop of `test_ringbuf` (lines 286-290): `ringbuf_put` of each entry in
order. -/
def put_all : SharedInfo → List ReadCount → Outcome SharedInfo
  | m, [] => .returned m
  | m, v :: vs =>
    match ringbuf_put m v with
    | .returned m1 => put_all m1 vs
    | o => o

/-- The drain loop of `test_ringbuf` (lines 291-296): `n` rounds of `ringbuf_get_first`
followed by `ringbuf_remove_first`; the entries read, in order, and the record left, or
`none` when a read leaves the array. -/
def pop_n : Nat → SharedInfo → Option (List ReadCount × SharedInfo)
  | 0, m => some ([], m)
  | n + 1, m =>
    match ringbuf_get_first m with
    | none => none
    | some r =>
      match pop_n n (ringbuf_remove_first m) with
      | none => none
      | some (l, m1) => some (m.readers r :: l, m1)

/-! ## Reading the ledger -/

/-- Index safety of the cursors: the mask is `32-1` and both cursors are array indices. -/
def IndexSafe (m : SharedInfo) : Prop :=
  m.capacity = 31 ∧ m.put_pos ≤ 31 ∧ m.get_pos ≤ 31

/-- The slot with number `i`, wrapped into the array. -/
def slot (i : Nat) : Fin 32 :=
  ⟨i % 32, Nat.mod_lt i (by decide)⟩

/-- The live ledger entries: the `ringbuf_size` slots from `get_pos` towards `put_pos`,
head first. -/
def live (m : SharedInfo) : List ReadCount :=
  (List.range (ringbuf_size m)).map fun i => m.readers (slot (m.get_pos + i))

/-- Whether an entry is a retired hole (its count is zero). -/
def isHole (e : ReadCount) : Bool :=
  e.count == 0

/-- Index of the first entry that carries version `v`; the length of the list when no
entry does. -/
def firstIndex (v : Nat) : List ReadCount → Nat
  | [] => 0
  | e :: l => if e.version = v then 0 else firstIndex v l + 1

/-- The fields of the shared record outside the ledger are the same in both records. -/
def SameHeader (m m1 : SharedInfo) : Prop :=
  m1.readmutex = m.readmutex ∧ m1.writemutex = m.writemutex ∧ m1.filesize = m.filesize ∧
    m1.infosize = m.infosize ∧ m1.current_top = m.current_top ∧
    m1.current_version = m.current_version ∧ m1.capacity = m.capacity

/-! ## The ledger updates on the list of live entries -/

/-- Whether `start_read` has to push a new entry: the ledger is empty or its tail entry
carries another version. -/
def pushes (m : SharedInfo) : Bool :=
  ringbuf_is_empty m ||
    match ringbuf_get_last m with
    | none => true
    | some r => decide ((m.readers r).version ≠ m.current_version)

/-- Whether `start_read` finds room: it does not push, or fewer than 31 slots are live
(retired holes included). -/
def hasRoom (m : SharedInfo) : Bool :=
  !pushes m || decide (ringbuf_size m < 31)

/-- The ledger update of `start_read` on the list of live entries, for the current
version `cv`: a tail entry with that version gets its count incremented, any other
ledger gets a new tail entry with count 1. -/
def bump (cv : Nat) (l : List ReadCount) : List ReadCount :=
  match l.getLast? with
  | none => [⟨cv, 1⟩]
  | some t =>
    if t.version = cv then l.dropLast ++ [⟨t.version, add32 t.count 1⟩]
    else l ++ [⟨cv, 1⟩]

/-- The ledger update of `end_read` on the list of live entries, for the handle version
`v`; `none` when the call dies on one of its assertions. -/
def release (v : Nat) (l : List ReadCount) : Option (List ReadCount) :=
  match l[firstIndex v l]? with
  | none => none
  | some e =>
    if e.count = 1 ∧ firstIndex v l = 0 then some (l.tail.dropWhile isHole)
    else if 0 < e.count then some (l.set (firstIndex v l) ⟨e.version, e.count - 1⟩)
    else none

/-! ## Book-keeping of a run -/

/-- Whether a call is a commit (`end_write`). -/
def Op.isCommit : Op → Bool
  | .end_write _ _ _ => true
  | _ => false

/-- Number of commits in a sequence of calls. -/
def commitCount (ops : List Op) : Nat :=
  (ops.filter Op.isCommit).length

/-- What a run has done, kept beside the code: the number of commits, and for every read
transaction that is open the handle and the number of commits that preceded its
`start_read` (the version it pinned, as long as `current_version` has not wrapped). -/
structure Book where
  commits : Nat
  reading : List (Nat × Nat)
deriving DecidableEq

/-- Book-keeping of one call. -/
def Book.step (b : Book) : Op → Book
  | .start_read h => { b with reading := (h, b.commits) :: b.reading }
  | .end_read h => { b with reading := b.reading.filter fun p => p.1 != h }
  | .start_write _ => b
  | .end_write _ _ _ => { b with commits := b.commits + 1 }

/-- A record with two live entries: `{0, 1}` at the head and the retired hole `{1, 0}`
behind it. -/
def holeRecord : SharedInfo :=
  { initialized ⟨0, 0⟩ 0 with
    readers := fun i => if i = 0 then ⟨0, 1⟩ else if i = 1 then ⟨1, 0⟩ else ⟨0, 0⟩,
    put_pos := 2,
    current_version := 1 }

/-- A record with two live entries of the same version 5: `{5, 0}` at the head and
`{5, 1}` behind it. -/
def twinRecord : SharedInfo :=
  { initialized ⟨0, 0⟩ 0 with
    readers := fun i => if i = 0 then ⟨5, 0⟩ else if i = 1 then ⟨5, 1⟩ else ⟨0, 0⟩,
    put_pos := 2,
    current_version := 5 }

/-- Thirty-two entries with the distinct versions 0 to 31, each with count 1. -/
def distinct32 : List ReadCount :=
  (List.range 32).map fun i => ⟨i, 1⟩

/-- A short run: handle 0 reads across a commit by handle 1. -/
def sampleRun : List Op :=
  [.start_read 0, .start_write 1, .end_write 1 7 8, .end_read 0]

/-- A run that leaves two reads open: handle 0 at version 0 and handle 2 at version 1. -/
def overlapRun : List Op :=
  [.start_read 0, .start_write 1, .end_write 1 7 8, .start_read 2]

/-- The first 31 of the 32 distinct entries. -/
def distinct31 : List ReadCount :=
  (List.range 31).map fun i => ⟨i, 1⟩

/-- The initialized record after `ringbuf_put` of the 31 entries of `distinct31`: one slot
short of the 32 that `ringbuf_capacity` reports. -/
def almostFull : SharedInfo :=
  (put_all (initialized ⟨0, 0⟩ 0) distinct31).state

/-- A list of versions that strictly increases and stays at or below `cv`. -/
def Ascending (vs : List Nat) (cv : Nat) : Prop :=
  vs.Pairwise (· < ·) ∧ ∀ x ∈ vs, x ≤ cv

/-- The invariant behind the order of the live versions: index safety, a free read mutex,
and live versions that strictly increase up to `current_version`. -/
def OrderInv (s : System) : Prop :=
  IndexSafe s.info ∧ s.info.readmutex = false ∧
    Ascending ((live s.info).map ReadCount.version) s.info.current_version

/-- The handle that makes a call. -/
def Op.handle : Op → Nat
  | .start_read h => h
  | .end_read h => h
  | .start_write h => h
  | .end_write h _ _ => h

/-- The handles with a write transaction open after one more call: `start_write` opens
one for its handle, `end_write` closes the one of its handle. -/
def writersStep (w : List Nat) : Op → List Nat
  | .start_write k => k :: w
  | .end_write k _ _ => w.erase k
  | _ => w

/-- The handles with a write transaction open after the calls `ops`, from the handles `w`
with one open before. -/
def openWrites (w : List Nat) (ops : List Op) : List Nat :=
  ops.foldl writersStep w

/-- Bracketed use of the write calls: `end_write` is called only by a handle whose write
transaction is open. -/
def bracketed : List Nat → List Op → Bool
  | _, [] => true
  | w, op :: ops =>
    (match op with
      | .end_write k _ _ => decide (k ∈ w)
      | _ => true) && bracketed (writersStep w op) ops

/-- The invariant behind writer exclusion: the write mutex is held exactly when a write
transaction is open, and at most one is. -/
def WriteInv (s : System) (w : List Nat) : Prop :=
  (s.info.writemutex = true ↔ w ≠ []) ∧ w.length ≤ 1

/-- A commit and a read transaction by handles 1 and 2. -/
def othersRun : List Op :=
  [.start_write 1, .end_write 1 7 8, .start_read 2, .end_read 2]

/-- Handle 1 opens a write transaction and does not end it. -/
def writerRun : List Op :=
  [.start_write 1]

/-- The record `almostFull` at `current_version = 31`: 31 live entries with the versions 0
to 30, so that the next `start_read` pushes. -/
def lastSlotRecord : SharedInfo :=
  { almostFull with current_version := 31 }

/-! ## Ledger arithmetic -/

theorem land31 (x : Nat) : x &&& 31 = x % 32 :=
  Nat.and_pow_two_sub_one_eq_mod x 5

theorem ringbuf_size_eq {m : SharedInfo} (h : IndexSafe m) :
    ringbuf_size m = (m.put_pos + 32 - m.get_pos) % 32 := by
  obtain ⟨hc, hp, hg⟩ := h
  simp only [ringbuf_size, sub32, UINT32_MOD, hc, land31]
  omega

theorem ringbuf_size_le {m : SharedInfo} (h : IndexSafe m) : ringbuf_size m ≤ 31 := by
  rw [ringbuf_size_eq h]
  omega

theorem ringbuf_is_empty_iff {m : SharedInfo} (h : IndexSafe m) :
    ringbuf_is_empty m = true ↔ m.put_pos = m.get_pos := by
  obtain ⟨hc, hp, hg⟩ := id h
  simp only [ringbuf_is_empty, beq_iff_eq, ringbuf_size_eq h]
  omega

theorem slot_eq_iff (a b : Nat) : slot a = slot b ↔ a % 32 = b % 32 := by
  simp [slot, Fin.ext_iff]

theorem ringbuf_get_of_le {i : Nat} (h : i ≤ 31) : ringbuf_get i = some (slot i) := by
  have h32 : i < 32 := by omega
  simp only [ringbuf_get, h32, dite_true, slot, Option.some.injEq, Fin.mk.injEq]
  omega

theorem length_live (m : SharedInfo) : (live m).length = ringbuf_size m := by
  simp [live]

theorem getElem_live (m : SharedInfo) (i : Nat) (h : i < (live m).length) :
    (live m)[i] = m.readers (slot (m.get_pos + i)) := by
  simp [live]

theorem indexSafe_remove_first {m : SharedInfo} (h : IndexSafe m) :
    IndexSafe (ringbuf_remove_first m) := by
  obtain ⟨hc, hp, hg⟩ := h
  refine ⟨hc, hp, ?_⟩
  simp only [ringbuf_remove_first, add32, UINT32_MOD, hc, land31]
  omega

theorem ringbuf_remove_first_eq {m : SharedInfo} (h : IndexSafe m) :
    ringbuf_remove_first m = { m with get_pos := (m.get_pos + 1) % 32 } := by
  obtain ⟨hc, hp, hg⟩ := h
  simp only [ringbuf_remove_first, add32, UINT32_MOD, hc, land31]
  congr 1
  omega

theorem ringbuf_size_remove_first {m : SharedInfo} (h : IndexSafe m)
    (hne : ringbuf_size m ≠ 0) :
    ringbuf_size (ringbuf_remove_first m) = ringbuf_size m - 1 := by
  have h1 := ringbuf_size_eq (indexSafe_remove_first h)
  have h0 := ringbuf_size_eq h
  obtain ⟨hc, hp, hg⟩ := h
  rw [h1]
  rw [h0] at hne ⊢
  simp only [ringbuf_remove_first, add32, UINT32_MOD, hc, land31]
  omega

/-- A non-empty ledger is its head slot followed by the ledger without its head. -/
theorem live_cons {m : SharedInfo} (h : IndexSafe m) (hne : ringbuf_size m ≠ 0) :
    live m = m.readers (slot m.get_pos) :: live (ringbuf_remove_first m) := by
  apply List.ext_getElem
  · simp only [length_live, List.length_cons, ringbuf_size_remove_first h hne]
    omega
  · intro i h1 h2
    rw [getElem_live]
    cases i with
    | zero => simp
    | succ j =>
      simp only [List.getElem_cons_succ]
      rw [getElem_live]
      have hs : slot (m.get_pos + (j + 1)) =
          slot ((ringbuf_remove_first m).get_pos + j) := by
        rw [slot_eq_iff, ringbuf_remove_first_eq h]
        simp only
        omega
      rw [hs]
      rfl

/-! ## The ledger operations on the list of live entries -/

theorem ringbuf_put_eq {m : SharedInfo} (h : IndexSafe m) (v : ReadCount) :
    ringbuf_put m v = .returned { m with
      readers := Function.update m.readers (slot m.put_pos) v,
      put_pos := (m.put_pos + 1) % 32 } := by
  have hs := ringbuf_size_le h
  obtain ⟨hc, hp, hg⟩ := h
  have hfull : (ringbuf_size m == add32 m.capacity 1) = false := by
    simp only [hc, add32, UINT32_MOD, beq_eq_false_iff_ne]
    omega
  have hpos : (add32 m.put_pos 1 &&& m.capacity) = (m.put_pos + 1) % 32 := by
    simp only [add32, UINT32_MOD, hc, land31]
    omega
  simp only [ringbuf_put, hfull, ringbuf_get_of_le hp, hpos]
  rfl

theorem indexSafe_put {m : SharedInfo} (h : IndexSafe m) (r : Fin 32 → ReadCount) :
    IndexSafe { m with readers := r, put_pos := (m.put_pos + 1) % 32 } := by
  obtain ⟨hc, hp, hg⟩ := h
  refine ⟨hc, ?_, hg⟩
  simp only
  omega

/-- Storing at `put_pos` below 31 live entries appends the entry to the live list. -/
theorem live_put {m : SharedInfo} (h : IndexSafe m) (hroom : ringbuf_size m < 31)
    (v : ReadCount) :
    live { m with readers := Function.update m.readers (slot m.put_pos) v,
                  put_pos := (m.put_pos + 1) % 32 } = live m ++ [v] := by
  have h1 := ringbuf_size_eq (indexSafe_put h (Function.update m.readers (slot m.put_pos) v))
  have h0 := ringbuf_size_eq h
  simp only at h1
  obtain ⟨hc, hp, hg⟩ := h
  apply List.ext_getElem
  · simp only [length_live, List.length_append, List.length_singleton, h1]
    omega
  · intro i hi1 hi2
    rw [getElem_live]
    simp only [length_live, h1] at hi1
    by_cases hlt : i < ringbuf_size m
    · rw [List.getElem_append_left (by rw [length_live]; exact hlt), getElem_live]
      have hne : slot (m.get_pos + i) ≠ slot m.put_pos := by
        rw [Ne, slot_eq_iff]
        omega
      simp only [Function.update_noteq hne]
    · have hi : i = ringbuf_size m := by omega
      have heq : slot (m.get_pos + i) = slot m.put_pos := by
        rw [slot_eq_iff]
        omega
      rw [List.getElem_append_right (by rw [length_live]; omega), heq]
      simp only [Function.update_same, length_live, hi, Nat.sub_self, List.getElem_cons_zero]

/-- Overwriting the live slot with index `i` replaces the entry `i` of the live list. -/
theorem live_update {m : SharedInfo} (h : IndexSafe m) {i : Nat}
    (hi : i < ringbuf_size m) (e : ReadCount) :
    live { m with readers := Function.update m.readers (slot (m.get_pos + i)) e } =
      (live m).set i e := by
  have h0 := ringbuf_size_eq h
  obtain ⟨hc, hp, hg⟩ := h
  have hsz : ringbuf_size { m with
      readers := Function.update m.readers (slot (m.get_pos + i)) e } = ringbuf_size m := rfl
  apply List.ext_getElem
  · simp only [length_live, List.length_set, hsz]
  · intro j hj1 hj2
    rw [getElem_live, List.getElem_set]
    simp only [length_live, hsz] at hj1
    by_cases hij : i = j
    · subst hij
      simp only [Function.update_same, if_true]
    · have hne : slot (m.get_pos + j) ≠ slot (m.get_pos + i) := by
        rw [Ne, slot_eq_iff]
        omega
      simp only [Function.update_noteq hne, hij, if_false, getElem_live]

theorem ringbuf_find_loop_get_pos (m : SharedInfo) (v x : Nat) (fuel : Nat) :
    ∀ pos, ringbuf_find_loop { m with get_pos := x } v fuel pos =
      ringbuf_find_loop m v fuel pos := by
  induction fuel with
  | zero => intro pos; rfl
  | succ k ih =>
    intro pos
    simp only [ringbuf_find_loop, ih]

/-- The scan of `ringbuf_find` returns the position of the first live entry with the
version, and `(size_t)-1` when there is none. -/
theorem ringbuf_find_loop_eq (v : Nat) :
    ∀ (n : Nat) (m : SharedInfo) (fuel : Nat), IndexSafe m → ringbuf_size m = n → n < fuel →
      ringbuf_find_loop m v fuel m.get_pos =
        .val (if firstIndex v (live m) < n then (m.get_pos + firstIndex v (live m)) % 32
              else SIZE_MAX) := by
  intro n
  induction n with
  | zero =>
    intro m fuel h hn hf
    obtain ⟨k, rfl⟩ : ∃ k, fuel = k + 1 := ⟨fuel - 1, by omega⟩
    have hemp : m.put_pos = m.get_pos := by
      rw [← ringbuf_is_empty_iff h]
      simp [ringbuf_is_empty, hn]
    simp [ringbuf_find_loop, hemp]
  | succ n ih =>
    intro m fuel h hn hf
    obtain ⟨k, rfl⟩ : ∃ k, fuel = k + 1 := ⟨fuel - 1, by omega⟩
    have hne : ringbuf_size m ≠ 0 := by omega
    have hpos : m.get_pos ≠ m.put_pos := by
      intro hc
      have := (ringbuf_is_empty_iff h).2 hc.symm
      simp [ringbuf_is_empty, hn] at this
    have hcons := live_cons h hne
    have h1 := indexSafe_remove_first h
    have hsz := ringbuf_size_remove_first h hne
    have hrec := ih (ringbuf_remove_first m) k h1 (by omega) (by omega)
    have hm1 := ringbuf_remove_first_eq h
    obtain ⟨hc, hp, hg⟩ := h
    have hnext : (add32 m.get_pos 1 &&& m.capacity) = (ringbuf_remove_first m).get_pos := rfl
    rw [ringbuf_find_loop]
    simp only [ne_eq, hpos, not_false_eq_true, if_true, ringbuf_get_of_le hg, hcons, firstIndex]
    by_cases hv : (m.readers (slot m.get_pos)).version = v
    · simp only [hv, if_true, Nat.zero_lt_succ, Nat.add_zero]
      congr 1
      omega
    · simp only [hv, if_false, hnext]
      have hloop : ringbuf_find_loop m v k (ringbuf_remove_first m).get_pos =
          ringbuf_find_loop (ringbuf_remove_first m) v k (ringbuf_remove_first m).get_pos := by
        have hirr := ringbuf_find_loop_get_pos m v ((m.get_pos + 1) % 32) k
          (ringbuf_remove_first m).get_pos
        rw [← hm1] at hirr
        exact hirr.symm
      rw [hloop, hrec]
      congr 1
      have hgp : (ringbuf_remove_first m).get_pos = (m.get_pos + 1) % 32 := by rw [hm1]
      by_cases hfi : firstIndex v (live (ringbuf_remove_first m)) < n
      · simp only [hfi, if_true, Nat.add_lt_add_iff_right, hgp]
        omega
      · simp only [hfi, if_false, Nat.add_lt_add_iff_right]

theorem ringbuf_find_eq {m : SharedInfo} (h : IndexSafe m) (v : Nat) :
    ringbuf_find m v =
      .val (if firstIndex v (live m) < ringbuf_size m
            then (m.get_pos + firstIndex v (live m)) % 32 else SIZE_MAX) :=
  ringbuf_find_loop_eq v (ringbuf_size m) m UINT32_MOD h rfl
    (by have := ringbuf_size_le h; simp only [UINT32_MOD]; omega)

/-- The compaction loop of `end_read` moves `get_pos` past the leading holes. -/
theorem end_read_compact_eq :
    ∀ (n : Nat) (m : SharedInfo) (fuel : Nat), IndexSafe m → ringbuf_size m = n → n < fuel →
      ∃ x, x ≤ 31 ∧ end_read_compact fuel m = .returned { m with get_pos := x } ∧
        live { m with get_pos := x } = (live m).dropWhile isHole := by
  intro n
  induction n with
  | zero =>
    intro m fuel h hn hf
    obtain ⟨k, rfl⟩ : ∃ k, fuel = k + 1 := ⟨fuel - 1, by omega⟩
    refine ⟨m.get_pos, h.2.2, ?_, ?_⟩
    · simp [end_read_compact, ringbuf_is_empty, hn]
    · have hnil : live m = [] := List.eq_nil_of_length_eq_zero (by rw [length_live, hn])
      show live m = _
      rw [hnil]
      rfl
  | succ n ih =>
    intro m fuel h hn hf
    obtain ⟨k, rfl⟩ : ∃ k, fuel = k + 1 := ⟨fuel - 1, by omega⟩
    have hne : ringbuf_size m ≠ 0 := by omega
    have hcons := live_cons h hne
    have h1 := indexSafe_remove_first h
    have hsz := ringbuf_size_remove_first h hne
    have hemp : ringbuf_is_empty m = false := by
      simp [ringbuf_is_empty, hn]
    have hfirst : ringbuf_get_first m = some (slot m.get_pos) := ringbuf_get_of_le h.2.2
    rw [end_read_compact]
    simp only [hemp, hfirst, Bool.false_eq_true, if_false]
    by_cases hz : (m.readers (slot m.get_pos)).count = 0
    · obtain ⟨x, hx, hrun, hlive⟩ := ih (ringbuf_remove_first m) k h1 (by omega) (by omega)
      refine ⟨x, hx, ?_, ?_⟩
      · simp only [hz, if_true]
        exact hrun
      · rw [hcons, List.dropWhile_cons]
        simp only [isHole, hz, beq_self_eq_true, if_true]
        exact hlive
    · refine ⟨m.get_pos, h.2.2, ?_, ?_⟩
      · simp only [hz, if_false]
      · show live m = _
        rw [hcons, List.dropWhile_cons]
        simp [isHole, hz]

theorem ringbuf_get_last_eq {m : SharedInfo} (h : IndexSafe m) (hne : ringbuf_size m ≠ 0) :
    ringbuf_get_last m = some (slot (m.get_pos + (ringbuf_size m - 1))) := by
  have h0 := ringbuf_size_eq h
  obtain ⟨hc, hp, hg⟩ := h
  have hpos : (sub32 m.put_pos 1 &&& m.capacity) = (m.put_pos + 31) % 32 := by
    simp only [sub32, UINT32_MOD, hc, land31]
    omega
  rw [ringbuf_get_last, hpos, ringbuf_get_of_le (by omega), Option.some.injEq, slot_eq_iff]
  omega

theorem getLast?_live {m : SharedInfo} (hne : ringbuf_size m ≠ 0) :
    (live m).getLast? = some (m.readers (slot (m.get_pos + (ringbuf_size m - 1)))) := by
  have hlen := length_live m
  rw [List.getLast?_eq_getElem?, List.getElem?_eq_getElem (by omega), getElem_live]
  simp only [hlen]

theorem dropLast_append_eq_set (l : List ReadCount) (e : ReadCount) (hne : l ≠ []) :
    l.dropLast ++ [e] = l.set (l.length - 1) e := by
  induction l with
  | nil => exact absurd rfl hne
  | cons a t ih =>
    cases t with
    | nil => rfl
    | cons b t2 =>
      have := ih (by simp)
      simp only [List.dropLast_cons₂, List.cons_append, this, List.length_cons,
        Nat.add_sub_cancel, List.set_cons_succ]

/-- The critical section of `start_read` on an index-safe record: it returns, leaves
the header alone and, unless a push meets 31 live entries, turns the live list into
its `bump`. -/
theorem start_read_update_live {m : SharedInfo} (h : IndexSafe m)
    (hroom : pushes m = true → ringbuf_size m < 31) :
    ∃ m1, start_read_update m = .returned m1 ∧ live m1 = bump m.current_version (live m) ∧
      IndexSafe m1 ∧ SameHeader m m1 := by
  by_cases hemp : ringbuf_is_empty m = true
  · have hsz : ringbuf_size m = 0 := by simpa [ringbuf_is_empty] using hemp
    have hnil : live m = [] := List.eq_nil_of_length_eq_zero (by rw [length_live, hsz])
    refine ⟨{ m with
      readers := Function.update m.readers (slot m.put_pos) ⟨m.current_version, 1⟩,
      put_pos := (m.put_pos + 1) % 32 }, ?_, ?_, indexSafe_put h _,
      ⟨rfl, rfl, rfl, rfl, rfl, rfl, rfl⟩⟩
    · simp only [start_read_update, hemp, if_true]
      exact ringbuf_put_eq h _
    · rw [live_put h (by omega), hnil]
      rfl
  · have hsz : ringbuf_size m ≠ 0 := by simpa [ringbuf_is_empty] using hemp
    have hlast := ringbuf_get_last_eq h hsz
    have hgl := getLast?_live hsz
    have hne : live m ≠ [] := by
      intro hc
      rw [hc] at hgl
      simp at hgl
    by_cases hv : (m.readers (slot (m.get_pos + (ringbuf_size m - 1)))).version
        = m.current_version
    · refine ⟨{ m with readers := (Function.update m.readers
          (slot (m.get_pos + (ringbuf_size m - 1)))
          ⟨(m.readers (slot (m.get_pos + (ringbuf_size m - 1)))).version,
           add32 (m.readers (slot (m.get_pos + (ringbuf_size m - 1)))).count 1⟩) },
        ?_, ?_, ⟨h.1, h.2.1, h.2.2⟩, ⟨rfl, rfl, rfl, rfl, rfl, rfl, rfl⟩⟩
      · simp only [start_read_update, hemp, hlast, hv, if_true, Bool.false_eq_true, if_false]
      · rw [live_update h (by omega)]
        simp only [bump, hgl, hv, if_true]
        rw [dropLast_append_eq_set _ _ hne, length_live]
    · have hp : pushes m = true := by
        simp only [pushes, hlast, Bool.or_eq_true, decide_eq_true_eq]
        exact Or.inr hv
      refine ⟨{ m with
        readers := Function.update m.readers (slot m.put_pos) ⟨m.current_version, 1⟩,
        put_pos := (m.put_pos + 1) % 32 }, ?_, ?_, indexSafe_put h _,
        ⟨rfl, rfl, rfl, rfl, rfl, rfl, rfl⟩⟩
      · simp only [start_read_update, hemp, hlast, hv, Bool.false_eq_true, if_false]
        exact ringbuf_put_eq h _
      · rw [live_put h (hroom hp)]
        simp only [bump, hgl, hv, if_false]

theorem firstIndex_le (v : Nat) (l : List ReadCount) : firstIndex v l ≤ l.length := by
  induction l with
  | nil => exact Nat.le_refl 0
  | cons e t ih =>
    simp only [firstIndex, List.length_cons]
    split <;> omega

/-- The critical section of `end_read` once the scan has found the version. -/
theorem end_read_update_found {m : SharedInfo} (h : IndexSafe m) (v : Nat)
    (hi : firstIndex v (live m) < ringbuf_size m) :
    end_read_update m v =
      if (m.readers (slot (m.get_pos + firstIndex v (live m)))).count = 1 ∧
          firstIndex v (live m) = 0 then
        end_read_compact UINT32_MOD (ringbuf_remove_first m)
      else if 0 < (m.readers (slot (m.get_pos + firstIndex v (live m)))).count then
        .returned { m with readers := (Function.update m.readers
          (slot (m.get_pos + firstIndex v (live m)))
          ⟨(m.readers (slot (m.get_pos + firstIndex v (live m)))).version,
           (m.readers (slot (m.get_pos + firstIndex v (live m)))).count - 1⟩) }
      else .aborted (.assertion 154) m := by
  have hsz := ringbuf_size_le h
  have hg := h.2.2
  have hndx : (m.get_pos + firstIndex v (live m)) % 32 ≠ SIZE_MAX := by
    simp only [SIZE_MAX]
    omega
  have hget : ringbuf_get ((m.get_pos + firstIndex v (live m)) % 32) =
      some (slot (m.get_pos + firstIndex v (live m))) := by
    rw [ringbuf_get_of_le (by omega), Option.some.injEq, slot_eq_iff]
    omega
  have hfirst : (ringbuf_is_first m ((m.get_pos + firstIndex v (live m)) % 32) = true) ↔
      firstIndex v (live m) = 0 := by
    simp only [ringbuf_is_first, beq_iff_eq]
    omega
  simp only [end_read_update, ringbuf_find_eq h v, hi, if_true, hndx, if_false, hget, hfirst,
    gt_iff_lt]

theorem end_read_update_missing {m : SharedInfo} (h : IndexSafe m) (v : Nat)
    (hi : ¬ firstIndex v (live m) < ringbuf_size m) :
    end_read_update m v = .aborted (.assertion 143) m := by
  simp only [end_read_update, ringbuf_find_eq h v, hi, if_false, if_true]

/-- The critical section of `end_read` on an index-safe record acts on the live list as
`release`: it returns exactly when `release` yields a list, and dies on an assertion with
the record untouched otherwise. -/
theorem end_read_update_live {m : SharedInfo} (h : IndexSafe m) (v : Nat) :
    match release v (live m) with
    | some l => ∃ m1, end_read_update m v = .returned m1 ∧ live m1 = l ∧
        IndexSafe m1 ∧ SameHeader m m1
    | none => ∃ f, end_read_update m v = .aborted f m := by
  by_cases hi : firstIndex v (live m) < ringbuf_size m
  · have hlen : firstIndex v (live m) < (live m).length := by rw [length_live]; exact hi
    have helem : (live m)[firstIndex v (live m)]? =
        some (m.readers (slot (m.get_pos + firstIndex v (live m)))) := by
      rw [List.getElem?_eq_getElem hlen, getElem_live]
    rw [end_read_update_found h v hi]
    simp only [release, helem]
    by_cases hpop : (m.readers (slot (m.get_pos + firstIndex v (live m)))).count = 1 ∧
        firstIndex v (live m) = 0
    · simp only [if_pos hpop]
      have hne : ringbuf_size m ≠ 0 := by omega
      have h1 := indexSafe_remove_first h
      obtain ⟨x, hx, hrun, hlive⟩ := end_read_compact_eq (ringbuf_size (ringbuf_remove_first m))
        (ringbuf_remove_first m) UINT32_MOD h1 rfl
        (by have := ringbuf_size_le h1; simp only [UINT32_MOD]; omega)
      refine ⟨{ m with get_pos := x }, hrun, ?_, ⟨h.1, h.2.1, hx⟩,
        ⟨rfl, rfl, rfl, rfl, rfl, rfl, rfl⟩⟩
      rw [live_cons h hne, List.tail_cons]
      exact hlive
    · simp only [if_neg hpop]
      by_cases hc : 0 < (m.readers (slot (m.get_pos + firstIndex v (live m)))).count
      · simp only [if_pos hc]
        exact ⟨_, rfl, live_update h hi _, ⟨h.1, h.2.1, h.2.2⟩,
          ⟨rfl, rfl, rfl, rfl, rfl, rfl, rfl⟩⟩
      · simp only [if_neg hc]
        exact ⟨_, rfl⟩
  · have hnone : (live m)[firstIndex v (live m)]? = none := by
      rw [List.getElem?_eq_none_iff, length_live]
      omega
    rw [end_read_update_missing h v hi]
    simp only [release, hnone]
    exact ⟨_, rfl⟩

/-! ## The four calls on one record and one handle -/

theorem live_congr {m m1 : SharedInfo} (hr : m1.readers = m.readers)
    (hp : m1.put_pos = m.put_pos) (hg : m1.get_pos = m.get_pos)
    (hc : m1.capacity = m.capacity) : live m1 = live m := by
  simp only [live, ringbuf_size, hr, hp, hg, hc]

/-- Effect of `start_read` with a free read mutex on an index-safe record with room. -/
theorem start_read_spec {m : SharedInfo} (g : SharedGroup) (h : IndexSafe m)
    (hfree : m.readmutex = false) (hroom : hasRoom m = true) :
    ∃ m1, start_read m g =
        .returned (m1, ⟨⟨m.current_top, m.filesize⟩, m.current_version⟩) ∧
      live m1 = bump m.current_version (live m) ∧ IndexSafe m1 ∧ SameHeader m m1 := by
  have hsafe : IndexSafe { m with readmutex := true } := h
  have hroom1 : pushes { m with readmutex := true } = true →
      ringbuf_size { m with readmutex := true } < 31 := by
    intro hp
    have hp0 : pushes m = true := hp
    simp only [hasRoom, hp0, Bool.not_true, Bool.false_or, decide_eq_true_eq] at hroom
    exact hroom
  obtain ⟨m2, hrun, hlive, hs2, hh⟩ := start_read_update_live hsafe hroom1
  refine ⟨{ m2 with readmutex := false }, ?_, ?_, hs2, ?_⟩
  · simp only [start_read, hfree, Bool.false_eq_true, if_false, hrun,
      Group.update_from_shared]
  · exact hlive
  · obtain ⟨_, h2, h3, h4, h5, h6, h7⟩ := hh
    exact ⟨hfree.symm, h2, h3, h4, h5, h6, h7⟩

/-- Effect of `end_read` with a free read mutex on an index-safe record, for a handle
whose `m_version` is not the marker `(uint32_t)-1`. -/
theorem end_read_spec {m : SharedInfo} (g : SharedGroup) (h : IndexSafe m)
    (hfree : m.readmutex = false) (hv : g.m_version ≠ UINT32_MAX) :
    match release g.m_version (live m) with
    | some l => ∃ m1, end_read m g = .returned (m1, ⟨g.m_group, UINT32_MAX⟩) ∧
        live m1 = l ∧ IndexSafe m1 ∧ SameHeader m m1
    | none => ∃ f, end_read m g = .aborted f ({ m with readmutex := true }, g) := by
  have hsafe : IndexSafe { m with readmutex := true } := h
  have hupd := end_read_update_live hsafe g.m_version
  have hl : live { m with readmutex := true } = live m := rfl
  rw [hl] at hupd
  cases hr : release g.m_version (live m) with
  | none =>
    simp only [hr] at hupd ⊢
    obtain ⟨f, hf⟩ := hupd
    exact ⟨f, by simp only [end_read, hv, if_false, hfree, Bool.false_eq_true, hf]⟩
  | some l =>
    simp only [hr] at hupd ⊢
    obtain ⟨m2, hrun, hlive, hs2, hh⟩ := hupd
    refine ⟨{ m2 with readmutex := false }, ?_, hlive, hs2, ?_⟩
    · simp only [end_read, hv, if_false, hfree, Bool.false_eq_true, hrun]
    · obtain ⟨_, h2, h3, h4, h5, h6, h7⟩ := hh
      exact ⟨hfree.symm, h2, h3, h4, h5, h6, h7⟩

theorem end_read_marker (m : SharedInfo) (g : SharedGroup) (hv : g.m_version = UINT32_MAX) :
    end_read m g = .aborted (.assertion 137) (m, g) := by
  simp only [end_read, hv, if_true]

theorem start_write_spec (m : SharedInfo) (g : SharedGroup) (hfree : m.writemutex = false) :
    start_write m g = .returned ({ m with writemutex := true },
      if m.current_top ≠ 0 then ⟨⟨m.current_top, m.filesize⟩, g.m_version⟩ else g) := by
  simp only [start_write, hfree, Bool.false_eq_true, if_false, Group.update_from_shared]
  split <;> rfl

theorem end_write_spec (m : SharedInfo) (g : SharedGroup) (new_top new_size : Nat)
    (hfree : m.readmutex = false) :
    end_write m g new_top new_size = .returned ({ m with
        current_top := new_top, filesize := new_size,
        current_version := add32 m.current_version 1, writemutex := false },
      ⟨⟨new_top, new_size⟩, g.m_version⟩) := by
  simp only [end_write, hfree, Bool.false_eq_true, if_false, Group.commit]

/-- The initialization block, run on the zeroed mapping of a first opener, returns the
record `initialized`. -/
theorem SharedGroup_init_zeroed (alloc : Group) (len : Nat) :
    SharedGroup_init SharedInfo.zeroed alloc len = .returned (initialized alloc len) := rfl

theorem hasRoom_of_lt {m : SharedInfo} (h : ringbuf_size m < 31) : hasRoom m = true := by
  simp only [hasRoom, Bool.or_eq_true, decide_eq_true_eq]
  exact Or.inr h

theorem indexSafe_initialized (alloc : Group) (len : Nat) :
    IndexSafe (initialized alloc len) :=
  ⟨rfl, Nat.zero_le _, Nat.zero_le _⟩

theorem live_initialized (alloc : Group) (len : Nat) : live (initialized alloc len) = [] := by
  apply List.eq_nil_of_length_eq_zero
  rw [length_live, ringbuf_size_eq (indexSafe_initialized alloc len)]
  show (0 + 32 - 0) % 32 = 0
  rfl

/-- A commit (`start_write` then `end_write`) with both mutexes free: both calls return,
the ledger is untouched, the new top and size are published and `current_version` is
incremented in `uint32_t`. -/
theorem commit_spec (m : SharedInfo) (w : SharedGroup) (new_top new_size : Nat)
    (hw : m.writemutex = false) (hr : m.readmutex = false) :
    ∃ m2 m3 w1 w2, start_write m w = .returned (m2, w1) ∧
      end_write m2 w1 new_top new_size = .returned (m3, w2) ∧
      live m3 = live m ∧ (IndexSafe m → IndexSafe m3) ∧
      m3.current_version = add32 m.current_version 1 ∧
      m3.current_top = new_top ∧ m3.filesize = new_size ∧
      m3.readmutex = false ∧ m3.writemutex = false := by
  refine ⟨_, _, _, _, start_write_spec m w hw, end_write_spec _ _ new_top new_size hr,
    live_congr rfl rfl rfl rfl, fun h => h, rfl, rfl, rfl, hr, rfl⟩

theorem tail_slot_eq {m : SharedInfo} (h : IndexSafe m) (hne : ringbuf_size m ≠ 0) :
    slot (m.get_pos + (ringbuf_size m - 1)) = slot (m.put_pos + 31) := by
  have h0 := ringbuf_size_eq h
  obtain ⟨hc, hp, hg⟩ := h
  rw [slot_eq_iff]
  omega

theorem ringbuf_get_last_after_put {m : SharedInfo} (h : IndexSafe m)
    (r : Fin 32 → ReadCount) :
    ringbuf_get_last { m with readers := r, put_pos := (m.put_pos + 1) % 32 } =
      some (slot m.put_pos) := by
  obtain ⟨hc, hp, hg⟩ := h
  have hpos : (sub32 ((m.put_pos + 1) % 32) 1 &&& m.capacity) = m.put_pos := by
    simp only [sub32, UINT32_MOD, hc, land31]
    omega
  simp only [ringbuf_get_last, hpos]
  exact ringbuf_get_of_le hp

/-- The rule of `start_read` on the slots: on an index-safe record with a free read mutex
it returns; the handle's view is refreshed to exactly `(current_top, filesize)` and its
`m_version` is `current_version`; `current_top`, `filesize`, `current_version` and
`get_pos` are unchanged.  Empty ledger: `{current_version, 1}` is stored at `put_pos` and
`put_pos` advances.  Tail entry with the current version: that slot's count is incremented
(in `uint32_t`) and `put_pos` stays.  Otherwise `{current_version, 1}` is stored at
`put_pos`, `put_pos` advances and the new slot is the one `ringbuf_get_last` designates;
below 31 live entries the live list gains it as its tail.  No other slot changes. -/
theorem start_read_contract (m : SharedInfo) (g : SharedGroup) (hsafe : IndexSafe m)
    (hfree : m.readmutex = false) :
    ∃ m1, start_read m g =
        .returned (m1, ⟨⟨m.current_top, m.filesize⟩, m.current_version⟩) ∧
      m1.current_top = m.current_top ∧ m1.filesize = m.filesize ∧
      m1.current_version = m.current_version ∧ m1.get_pos = m.get_pos ∧
      (ringbuf_is_empty m = true →
        m1.readers = Function.update m.readers (slot m.put_pos) ⟨m.current_version, 1⟩ ∧
        m1.put_pos = (m.put_pos + 1) % 32 ∧ live m1 = [⟨m.current_version, 1⟩]) ∧
      (∀ t, ringbuf_is_empty m = false → (live m).getLast? = some t →
        t.version = m.current_version →
        m1.readers = Function.update m.readers (slot (m.put_pos + 31))
          ⟨t.version, add32 t.count 1⟩ ∧
        m1.put_pos = m.put_pos ∧
        live m1 = (live m).dropLast ++ [⟨t.version, add32 t.count 1⟩]) ∧
      (∀ t, ringbuf_is_empty m = false → (live m).getLast? = some t →
        t.version ≠ m.current_version →
        m1.readers = Function.update m.readers (slot m.put_pos) ⟨m.current_version, 1⟩ ∧
        m1.put_pos = (m.put_pos + 1) % 32 ∧
        ringbuf_get_last m1 = some (slot m.put_pos) ∧
        (ringbuf_size m < 31 → live m1 = live m ++ [⟨m.current_version, 1⟩])) := by
  have hsafe1 : IndexSafe { m with readmutex := true } := hsafe
  by_cases hemp : ringbuf_is_empty m = true
  · have hsz : ringbuf_size m = 0 := by simpa [ringbuf_is_empty] using hemp
    have hnil : live m = [] := List.eq_nil_of_length_eq_zero (by rw [length_live, hsz])
    have hemp1 : ringbuf_is_empty { m with readmutex := true } = true := hemp
    refine ⟨{ m with
      readers := Function.update m.readers (slot m.put_pos) ⟨m.current_version, 1⟩,
      put_pos := (m.put_pos + 1) % 32 }, ?_, rfl, rfl, rfl, rfl, ?_, ?_, ?_⟩
    · simp only [start_read, hfree, Bool.false_eq_true, if_false, start_read_update, hemp1,
        if_true, ringbuf_put_eq hsafe1, Group.update_from_shared]
    · intro _
      refine ⟨rfl, rfl, ?_⟩
      have := live_put hsafe (by omega) ⟨m.current_version, 1⟩
      rw [hnil] at this
      exact this
    · intro t hne
      rw [hemp] at hne
      exact absurd hne (by decide)
    · intro t hne
      rw [hemp] at hne
      exact absurd hne (by decide)
  · have hsz : ringbuf_size m ≠ 0 := by simpa [ringbuf_is_empty] using hemp
    have hemp1 : ringbuf_is_empty { m with readmutex := true } = false := by
      simpa using hemp
    have hlast : ringbuf_get_last { m with readmutex := true } =
        some (slot (m.put_pos + 31)) := by
      rw [← tail_slot_eq hsafe hsz]
      exact ringbuf_get_last_eq hsafe hsz
    have hgl := getLast?_live hsz
    rw [tail_slot_eq hsafe hsz] at hgl
    have hne : live m ≠ [] := by
      intro hc
      rw [hc] at hgl
      simp at hgl
    by_cases hv : (m.readers (slot (m.put_pos + 31))).version = m.current_version
    · refine ⟨{ m with readers := (Function.update m.readers (slot (m.put_pos + 31))
          ⟨(m.readers (slot (m.put_pos + 31))).version,
           add32 (m.readers (slot (m.put_pos + 31))).count 1⟩) },
        ?_, rfl, rfl, rfl, rfl, ?_, ?_, ?_⟩
      · simp only [start_read, hfree, Bool.false_eq_true, if_false, start_read_update, hemp1,
          hlast, hv, if_true, Group.update_from_shared]
      · intro he
        exact absurd he hemp
      · intro t _ ht _
        rw [hgl, Option.some.injEq] at ht
        subst ht
        refine ⟨rfl, rfl, ?_⟩
        rw [dropLast_append_eq_set _ _ hne, length_live, ← tail_slot_eq hsafe hsz]
        exact live_update hsafe (by omega) _
      · intro t _ ht hne2
        rw [hgl, Option.some.injEq] at ht
        subst ht
        exact absurd hv hne2
    · refine ⟨{ m with
        readers := Function.update m.readers (slot m.put_pos) ⟨m.current_version, 1⟩,
        put_pos := (m.put_pos + 1) % 32 }, ?_, rfl, rfl, rfl, rfl, ?_, ?_, ?_⟩
      · simp only [start_read, hfree, Bool.false_eq_true, if_false, start_read_update, hemp1,
          hlast, hv, ringbuf_put_eq hsafe1, Group.update_from_shared]
      · intro he
        exact absurd he hemp
      · intro t _ ht heq
        rw [hgl, Option.some.injEq] at ht
        subst ht
        exact absurd heq hv
      · intro t _ _ _
        exact ⟨rfl, rfl, ringbuf_get_last_after_put hsafe _, fun hlt => live_put hsafe hlt _⟩

/-- The rule at a concrete record: the initialized record of a store at `(5, 6)`. -/
theorem start_read_contract_witness :
    ∃ m1, start_read (initialized ⟨5, 6⟩ 0) (SharedGroup.fresh ⟨5, 6⟩) =
        .returned (m1, ⟨⟨5, 6⟩, 0⟩) ∧ live m1 = [⟨0, 1⟩] := by
  obtain ⟨m1, h1, _, _, _, _, h2, _⟩ :=
    start_read_contract (initialized ⟨5, 6⟩ 0) (SharedGroup.fresh ⟨5, 6⟩)
      ⟨rfl, by decide, by decide⟩ rfl
  exact ⟨m1, h1, (h2 (by decide)).2.2⟩

set_option maxRecDepth 100000 in
/-- C8 (the code at the failing input): `lastSlotRecord` has 31 live entries, fewer than
the 32 of `ringbuf_capacity`, a free read mutex, and the tail entry `{30, 1}` under
`current_version = 31`.  `start_read` returns, hands over the view and the version, and
stores `{31, 1}` in slot 31, but `put_pos` lands on `get_pos`: no entry is live
afterwards, neither the new tail entry nor the 31 entries that were live. -/
theorem start_read_push_wraps :
    IndexSafe lastSlotRecord ∧ lastSlotRecord.readmutex = false ∧
      ringbuf_size lastSlotRecord = 31 ∧ ringbuf_capacity lastSlotRecord = 32 ∧
      (live lastSlotRecord).length = 31 ∧
      (live lastSlotRecord).getLast? = some ⟨30, 1⟩ ∧
      ∃ m1, start_read lastSlotRecord (SharedGroup.fresh ⟨0, 0⟩) =
          .returned (m1, ⟨⟨0, 0⟩, 31⟩) ∧
        m1.readers 31 = ⟨31, 1⟩ ∧ m1.put_pos = m1.get_pos ∧ live m1 = [] ∧
        ringbuf_is_empty m1 = true :=
  ⟨⟨rfl, by decide, by decide⟩, rfl, by decide, by decide, by decide, by decide,
    _, rfl, by decide, by decide, by decide, by decide⟩

theorem firstIndex_eq_length (v : Nat) (l : List ReadCount)
    (h : ∀ e ∈ l, e.version ≠ v) : firstIndex v l = l.length := by
  induction l with
  | nil => rfl
  | cons e t ih =>
    have he : e.version ≠ v := h e (List.mem_cons_self e t)
    simp only [firstIndex, he, if_false, List.length_cons]
    rw [ih (fun x hx => h x (List.mem_cons_of_mem e hx))]

theorem firstIndex_version (v : Nat) (l : List ReadCount) (e : ReadCount)
    (h : l[firstIndex v l]? = some e) : e.version = v := by
  induction l with
  | nil => simp at h
  | cons a t ih =>
    by_cases ha : a.version = v
    · simp only [firstIndex, ha, if_true, List.getElem?_cons_zero, Option.some.injEq] at h
      rw [← h]
      exact ha
    · simp only [firstIndex, ha, if_false, List.getElem?_cons_succ] at h
      exact ih h

/-- The three ways `end_read` goes once the scan has found the first live entry `e` with
the handle's version, at index `i` of the live list. -/
theorem end_read_found {m : SharedInfo} (g : SharedGroup) (hsafe : IndexSafe m)
    (hfree : m.readmutex = false) (hact : g.m_version ≠ UINT32_MAX)
    {i : Nat} {e : ReadCount} (hi : firstIndex g.m_version (live m) = i)
    (he : (live m)[i]? = some e) :
    (e.count = 1 ∧ i = 0 →
      ∃ x, x ≤ 31 ∧
        end_read m g = .returned ({ m with get_pos := x }, ⟨g.m_group, UINT32_MAX⟩) ∧
        live { m with get_pos := x } = (live m).tail.dropWhile isHole) ∧
    (¬ (e.count = 1 ∧ i = 0) → 0 < e.count →
      end_read m g = .returned ({ m with readers :=
          (Function.update m.readers (slot (m.get_pos + i)) ⟨e.version, e.count - 1⟩) },
        ⟨g.m_group, UINT32_MAX⟩) ∧
      live { m with readers :=
          (Function.update m.readers (slot (m.get_pos + i)) ⟨e.version, e.count - 1⟩) } =
        (live m).set i ⟨e.version, e.count - 1⟩) ∧
    (e.count = 0 →
      end_read m g = .aborted (.assertion 154) ({ m with readmutex := true }, g)) := by
  have hsafe1 : IndexSafe { m with readmutex := true } := hsafe
  have hl : live { m with readmutex := true } = live m := rfl
  have hlen : i < (live m).length := by
    by_contra hc
    rw [List.getElem?_eq_none_iff.2 (by omega)] at he
    exact absurd he (by simp)
  have hsz : i < ringbuf_size m := by rw [← length_live]; exact hlen
  have hslot : m.readers (slot (m.get_pos + i)) = e := by
    rw [List.getElem?_eq_getElem hlen, getElem_live, Option.some.injEq] at he
    exact he
  have hfound := end_read_update_found hsafe1 g.m_version (by rw [hl, hi]; exact hsz)
  rw [hl, hi] at hfound
  have hslot1 : ({ m with readmutex := true } : SharedInfo).readers
      (slot (({ m with readmutex := true } : SharedInfo).get_pos + i)) = e := hslot
  rw [hslot1] at hfound
  refine ⟨?_, ?_, ?_⟩
  · intro hpop
    have hne : ringbuf_size m ≠ 0 := by omega
    have h1 := indexSafe_remove_first hsafe
    obtain ⟨x, hx, hrun, hlive⟩ := end_read_compact_eq
      (ringbuf_size (ringbuf_remove_first { m with readmutex := true }))
      (ringbuf_remove_first { m with readmutex := true }) UINT32_MOD
      (indexSafe_remove_first hsafe1) rfl
      (by have := ringbuf_size_le h1; simp only [UINT32_MOD]; exact Nat.lt_of_le_of_lt this (by decide))
    refine ⟨x, hx, ?_, ?_⟩
    · rw [if_pos hpop] at hfound
      simp only [end_read, hact, if_false, hfree, Bool.false_eq_true, hfound, hrun]
      cases m
      simp_all [ringbuf_remove_first]
    · rw [live_cons hsafe hne, List.tail_cons]
      exact hlive
  · intro hnpop hpos
    rw [if_neg hnpop, if_pos hpos] at hfound
    refine ⟨?_, live_update hsafe hsz _⟩
    simp only [end_read, hact, if_false, hfree, Bool.false_eq_true, hfound]
  · intro hzero
    have hnpop : ¬ (e.count = 1 ∧ i = 0) := by
      intro hc
      omega
    have hnpos : ¬ 0 < e.count := by omega
    rw [if_neg hnpop, if_neg hnpos] at hfound
    simp only [end_read, hact, if_false, hfree, Bool.false_eq_true, hfound]

/-- The way `end_read` goes when no live entry carries the handle's version. -/
theorem end_read_missing {m : SharedInfo} (g : SharedGroup) (hsafe : IndexSafe m)
    (hfree : m.readmutex = false) (hact : g.m_version ≠ UINT32_MAX)
    (hno : ∀ e ∈ live m, e.version ≠ g.m_version) :
    end_read m g = .aborted (.assertion 143) ({ m with readmutex := true }, g) := by
  have hsafe1 : IndexSafe { m with readmutex := true } := hsafe
  have hl : live { m with readmutex := true } = live m := rfl
  have hmiss := end_read_update_missing hsafe1 g.m_version
    (by rw [hl, firstIndex_eq_length _ _ hno, length_live]; exact Nat.lt_irrefl _)
  simp only [end_read, hact, if_false, hfree, Bool.false_eq_true, hmiss]

theorem head_dropWhile_isHole (l : List ReadCount) (e : ReadCount)
    (h : (l.dropWhile isHole).head? = some e) : e.count ≠ 0 := by
  induction l with
  | nil => simp at h
  | cons a t ih =>
    rw [List.dropWhile_cons] at h
    by_cases ha : isHole a = true
    · rw [if_pos ha] at h
      exact ih h
    · rw [if_neg ha, List.head?_cons, Option.some.injEq] at h
      rw [← h]
      simpa [isHole] using ha

/-- C9 (amended): `end_read` on an index-safe record with a free read mutex, for a handle
with an active version (`m_version` is not `(uint32_t)-1`) whose first live entry is `e`.
If `e` is the head and `e.count = 1`, the call returns, the head and every hole exposed
behind it are popped (the new ledger is empty or has a head with non-zero count), no slot
and not `put_pos` changes.  Otherwise, if `e.count > 0`, the call returns, that one slot
gets its count decremented and the cursors stay.  If `e.count = 0` the call dies on the
assertion of line 154.  A returning call clears the handle's `m_version`. -/
theorem end_read_contract (m : SharedInfo) (g : SharedGroup) (hsafe : IndexSafe m)
    (hfree : m.readmutex = false) (hact : g.m_version ≠ UINT32_MAX) (e : ReadCount)
    (he : (live m)[firstIndex g.m_version (live m)]? = some e) :
    e.version = g.m_version ∧
    (e.count = 1 ∧ firstIndex g.m_version (live m) = 0 →
      ∃ m1, end_read m g = .returned (m1, ⟨g.m_group, UINT32_MAX⟩) ∧
        live m1 = (live m).tail.dropWhile isHole ∧
        (∀ e1, (live m1).head? = some e1 → e1.count ≠ 0) ∧
        m1.readers = m.readers ∧ m1.put_pos = m.put_pos) ∧
    (¬ (e.count = 1 ∧ firstIndex g.m_version (live m) = 0) → 0 < e.count →
      ∃ m1, end_read m g = .returned (m1, ⟨g.m_group, UINT32_MAX⟩) ∧
        live m1 = (live m).set (firstIndex g.m_version (live m)) ⟨e.version, e.count - 1⟩ ∧
        m1.readers = Function.update m.readers
          (slot (m.get_pos + firstIndex g.m_version (live m))) ⟨e.version, e.count - 1⟩ ∧
        m1.get_pos = m.get_pos ∧ m1.put_pos = m.put_pos) ∧
    (e.count = 0 →
      end_read m g = .aborted (.assertion 154) ({ m with readmutex := true }, g)) := by
  obtain ⟨hpop, hdec, hzero⟩ := end_read_found g hsafe hfree hact rfl he
  refine ⟨firstIndex_version _ _ _ he, ?_, ?_, hzero⟩
  · intro hc
    obtain ⟨x, _, hrun, hlive⟩ := hpop hc
    refine ⟨_, hrun, hlive, ?_, rfl, rfl⟩
    intro e1 h1
    rw [hlive] at h1
    exact head_dropWhile_isHole _ _ h1
  · intro hc hpos
    obtain ⟨hrun, hlive⟩ := hdec hc hpos
    exact ⟨_, hrun, hlive, rfl, rfl, rfl⟩

/-- C9 at a concrete record: the handle that pinned version 0 in `holeRecord` ends its
read, and the head and the hole behind it are popped. -/
theorem end_read_contract_witness :
    ∃ m1, end_read holeRecord ⟨⟨0, 0⟩, 0⟩ = .returned (m1, ⟨⟨0, 0⟩, UINT32_MAX⟩) ∧
      live m1 = [] := by
  obtain ⟨m1, h1, h2, _⟩ :=
    (end_read_contract holeRecord ⟨⟨0, 0⟩, 0⟩ ⟨rfl, by decide, by decide⟩ rfl (by decide)
      ⟨0, 1⟩ (by decide)).2.1 (by decide)
  exact ⟨m1, h1, h2.trans (by decide)⟩

/-- C9 as stated fails: in `holeRecord` the live entry for version 1 is not the head and
has count 0; `end_read` of a handle at version 1 does not decrement it but dies on the
assertion of line 154, with every slot as before and the handle's version not cleared. -/
theorem end_read_contract_counterexample :
    IndexSafe holeRecord ∧ holeRecord.readmutex = false ∧
      live holeRecord = [⟨0, 1⟩, ⟨1, 0⟩] ∧
      end_read holeRecord ⟨⟨0, 0⟩, 1⟩ =
        .aborted (.assertion 154) ({ holeRecord with readmutex := true }, ⟨⟨0, 0⟩, 1⟩) :=
  ⟨⟨rfl, by decide, by decide⟩, rfl, by decide, rfl⟩

/-- C10 (amended): `end_read` dies on an assertion and changes nothing of the ledger, the
cursors, `current_top`, `filesize` and `current_version` when the handle has no active
read (`m_version` is the marker, as after construction or after a returned `end_read`),
and, on an index-safe record with a free read mutex, when no live entry carries the
handle's version; it returns when the first live entry with the handle's version has a
count above 0. -/
theorem end_read_protocol (m : SharedInfo) (g : SharedGroup) :
    (g.m_version = UINT32_MAX → end_read m g = .aborted (.assertion 137) (m, g)) ∧
    (∀ store, end_read m (SharedGroup.fresh store) =
      .aborted (.assertion 137) (m, SharedGroup.fresh store)) ∧
    (∀ m0 g0 m1 g1, end_read m0 g0 = .returned (m1, g1) →
      end_read m g1 = .aborted (.assertion 137) (m, g1)) ∧
    (IndexSafe m → m.readmutex = false → g.m_version ≠ UINT32_MAX →
      (∀ e ∈ live m, e.version ≠ g.m_version) →
      end_read m g = .aborted (.assertion 143) ({ m with readmutex := true }, g)) ∧
    (IndexSafe m → m.readmutex = false → g.m_version ≠ UINT32_MAX →
      ∀ e, (live m)[firstIndex g.m_version (live m)]? = some e → 0 < e.count →
      ∃ m1, end_read m g = .returned (m1, ⟨g.m_group, UINT32_MAX⟩)) := by
  refine ⟨end_read_marker m g, fun store => end_read_marker m _ rfl, ?_,
    fun hsafe hfree hact hno => end_read_missing g hsafe hfree hact hno, ?_⟩
  · intro m0 g0 m1 g1 hret
    apply end_read_marker
    simp only [end_read] at hret
    split at hret
    · exact absurd hret (by simp)
    · split at hret
      · exact absurd hret (by simp)
      · split at hret
        · simp only [Outcome.returned.injEq, Prod.mk.injEq] at hret
          rw [← hret.2]
        · exact absurd hret (by simp)
        · exact absurd hret (by simp)
        · exact absurd hret (by simp)
  · intro hsafe hfree hact e he hpos
    obtain ⟨hpop, hdec, _⟩ := end_read_found g hsafe hfree hact rfl he
    by_cases hc : e.count = 1 ∧ firstIndex g.m_version (live m) = 0
    · obtain ⟨x, _, hrun, _⟩ := hpop hc
      exact ⟨_, hrun⟩
    · exact ⟨_, (hdec hc hpos).1⟩

/-- C10 at concrete inputs: a fresh handle, a handle at a version the empty ledger does
not hold, and the reader of version 0 in `holeRecord`. -/
theorem end_read_protocol_witness :
    end_read (initialized ⟨0, 0⟩ 0) (SharedGroup.fresh ⟨0, 0⟩) =
        .aborted (.assertion 137) (initialized ⟨0, 0⟩ 0, SharedGroup.fresh ⟨0, 0⟩) ∧
      end_read (initialized ⟨0, 0⟩ 0) ⟨⟨0, 0⟩, 3⟩ =
        .aborted (.assertion 143)
          ({ initialized ⟨0, 0⟩ 0 with readmutex := true }, ⟨⟨0, 0⟩, 3⟩) ∧
      ∃ m1, end_read holeRecord ⟨⟨0, 0⟩, 0⟩ = .returned (m1, ⟨⟨0, 0⟩, UINT32_MAX⟩) :=
  ⟨(end_read_protocol _ _).1 rfl,
   (end_read_protocol _ _).2.2.2.1 ⟨rfl, by decide, by decide⟩ rfl (by decide) (by decide),
   (end_read_protocol holeRecord ⟨⟨0, 0⟩, 0⟩).2.2.2.2 ⟨rfl, by decide, by decide⟩ rfl
     (by decide) ⟨0, 1⟩ (by decide) (by decide)⟩

/-- C10 as stated fails: in `twinRecord` the version 5 has a live entry with count 1, yet
`end_read` of a handle at version 5 finds the first entry `{5, 0}` and dies on the
assertion of line 154. -/
theorem end_read_protocol_counterexample :
    IndexSafe twinRecord ∧ twinRecord.readmutex = false ∧
      (∃ e ∈ live twinRecord, e.version = 5 ∧ 0 < e.count) ∧
      end_read twinRecord ⟨⟨0, 0⟩, 5⟩ =
        .aborted (.assertion 154) ({ twinRecord with readmutex := true }, ⟨⟨0, 0⟩, 5⟩) :=
  ⟨⟨rfl, by decide, by decide⟩, rfl, by decide, rfl⟩

/-! ## Filling and draining the ledger -/

theorem put_all_spec :
    ∀ (es : List ReadCount) (m : SharedInfo), IndexSafe m → es.length ≤ 32 →
      ∃ m1, put_all m es = .returned m1 ∧ IndexSafe m1 ∧ m1.get_pos = m.get_pos ∧
        m1.put_pos = (m.put_pos + es.length) % 32 ∧
        (∀ i, (hi : i < es.length) → m1.readers (slot (m.put_pos + i)) = es[i]) ∧
        (∀ j : Fin 32, (∀ i, i < es.length → j ≠ slot (m.put_pos + i)) →
          m1.readers j = m.readers j) := by
  intro es
  induction es with
  | nil =>
    intro m h _
    refine ⟨m, rfl, h, rfl, ?_, ?_, ?_⟩
    · have := h.2.1
      simp only [List.length_nil, Nat.add_zero]
      omega
    · intro i hi
      exact absurd hi (Nat.not_lt_zero i)
    · intro j _
      rfl
  | cons v vs ih =>
    intro m h hlen
    have hp := h.2.1
    simp only [List.length_cons] at hlen
    obtain ⟨m1, hrun, hs1, hg1, hp1, hval, hframe⟩ :=
      ih _ (indexSafe_put h (Function.update m.readers (slot m.put_pos) v)) (by omega)
    simp only at hg1 hp1 hval hframe
    refine ⟨m1, ?_, hs1, hg1, ?_, ?_, ?_⟩
    · simp only [put_all, ringbuf_put_eq h v]
      exact hrun
    · rw [hp1, List.length_cons]
      omega
    · intro i hi
      cases i with
      | zero =>
        have hkeep := hframe (slot m.put_pos) (by
          intro k hk
          rw [Ne, slot_eq_iff]
          omega)
        rw [Nat.add_zero, hkeep]
        simp only [Function.update_same, List.getElem_cons_zero]
      | succ k =>
        simp only [List.length_cons, Nat.add_lt_add_iff_right] at hi
        have hslot : slot (m.put_pos + (k + 1)) = slot ((m.put_pos + 1) % 32 + k) := by
          rw [slot_eq_iff]
          omega
        rw [hslot, hval k hi]
        simp only [List.getElem_cons_succ]
    · intro j hj
      have hj0 : j ≠ slot m.put_pos := by
        have := hj 0 (by simp only [List.length_cons]; omega)
        rwa [Nat.add_zero] at this
      have hkeep := hframe j (by
        intro k hk
        have hk1 := hj (k + 1) (by simp only [List.length_cons]; omega)
        have hslot : slot (m.put_pos + (k + 1)) = slot ((m.put_pos + 1) % 32 + k) := by
          rw [slot_eq_iff]
          omega
        rwa [hslot] at hk1)
      rw [hkeep]
      simp only [Function.update_noteq hj0]

theorem pop_n_spec :
    ∀ (n : Nat) (m : SharedInfo), IndexSafe m →
      ∃ m2, pop_n n m =
          some ((List.range n).map (fun i => m.readers (slot (m.get_pos + i))), m2) ∧
        IndexSafe m2 ∧ m2.get_pos = (m.get_pos + n) % 32 ∧ m2.put_pos = m.put_pos := by
  intro n
  induction n with
  | zero =>
    intro m h
    refine ⟨m, rfl, h, ?_, rfl⟩
    have := h.2.2
    omega
  | succ n ih =>
    intro m h
    obtain ⟨m2, hrun, hs2, hg2, hp2⟩ := ih _ (indexSafe_remove_first h)
    have hfirst : ringbuf_get_first m = some (slot m.get_pos) := ringbuf_get_of_le h.2.2
    have hg1 : (ringbuf_remove_first m).get_pos = (m.get_pos + 1) % 32 := by
      rw [ringbuf_remove_first_eq h]
    refine ⟨m2, ?_, hs2, ?_, hp2⟩
    · simp only [pop_n, hfirst, hrun, List.range_succ_eq_map, List.map_cons, List.map_map,
        Nat.add_zero, Option.some.injEq, Prod.mk.injEq, List.cons.injEq, true_and, and_true]
      apply List.map_congr_left
      intro i _
      show (ringbuf_remove_first m).readers _ = m.readers _
      have hslot : slot ((ringbuf_remove_first m).get_pos + i) = slot (m.get_pos + (i + 1)) := by
        rw [slot_eq_iff, hg1]
        omega
      rw [hslot]
      rfl
    · rw [hg2, hg1]
      omega

/-- C4: on an index-safe record with mask 31 and an empty ledger (`put_pos = get_pos`),
`ringbuf_put` of up to 32 entries in order returns each time, and as many rounds of
`ringbuf_get_first` then `ringbuf_remove_first` read exactly the pushed entries in push
order and leave `ringbuf_is_empty` true. -/
theorem ringbuf_round_trip (m : SharedInfo) (entries : List ReadCount) (hsafe : IndexSafe m)
    (hempty : m.put_pos = m.get_pos) (hn : entries.length ≤ 32) :
    ∃ m1 m2, put_all m entries = .returned m1 ∧
      pop_n entries.length m1 = some (entries, m2) ∧ ringbuf_is_empty m2 = true := by
  obtain ⟨m1, hput, hs1, hg1, hp1, hval, _⟩ := put_all_spec entries m hsafe hn
  obtain ⟨m2, hpop, hs2, hg2, hp2⟩ := pop_n_spec entries.length m1 hs1
  refine ⟨m1, m2, hput, ?_, ?_⟩
  · rw [hpop, Option.some.injEq, Prod.mk.injEq]
    refine ⟨?_, rfl⟩
    apply List.ext_getElem
    · simp only [List.length_map, List.length_range]
    · intro i h1 h2
      simp only [List.getElem_map, List.getElem_range, hg1, ← hempty]
      exact hval i h2
  · rw [ringbuf_is_empty_iff hs2, hp2, hg2, hp1, hg1, hempty]

/-- C4 at a concrete input: three entries through the initialized record. -/
theorem ringbuf_round_trip_witness :
    ∃ m1 m2, put_all (initialized ⟨0, 0⟩ 0) [⟨1, 0⟩, ⟨1, 1⟩, ⟨1, 2⟩] = .returned m1 ∧
      pop_n 3 m1 = some ([⟨1, 0⟩, ⟨1, 1⟩, ⟨1, 2⟩], m2) ∧ ringbuf_is_empty m2 = true :=
  ringbuf_round_trip (initialized ⟨0, 0⟩ 0) [⟨1, 0⟩, ⟨1, 1⟩, ⟨1, 2⟩]
    ⟨rfl, by decide, by decide⟩ rfl (by decide)

/-- C5 (the code at the failing input): after 32 `ringbuf_put` calls with distinct
versions into the initialized record, slot 0 holds the first entry and `ringbuf_size`
reads 0; a 33rd `ringbuf_put` is not stopped by the full check of line 246: it returns
and overwrites slot 0. -/
theorem ringbuf_put_overflow :
    ∃ m1 m2, put_all (initialized ⟨0, 0⟩ 0) distinct32 = .returned m1 ∧
      m1.readers 0 = ⟨0, 1⟩ ∧ ringbuf_size m1 = 0 ∧
      ringbuf_put m1 ⟨32, 1⟩ = .returned m2 ∧ m2.readers 0 = ⟨32, 1⟩ :=
  ⟨_, _, rfl, by decide, by decide, rfl, by decide⟩

/-! ## The version counter -/

theorem ringbuf_put_header {m m1 : SharedInfo} {v : ReadCount}
    (h : ringbuf_put m v = .returned m1) : SameHeader m m1 := by
  simp only [ringbuf_put] at h
  split at h
  · exact absurd h (by simp)
  · split at h
    · simp only [Outcome.returned.injEq] at h
      subst h
      exact ⟨rfl, rfl, rfl, rfl, rfl, rfl, rfl⟩
    · simp only [Outcome.returned.injEq] at h
      subst h
      exact ⟨rfl, rfl, rfl, rfl, rfl, rfl, rfl⟩

theorem start_read_update_header {m m1 : SharedInfo}
    (h : start_read_update m = .returned m1) : SameHeader m m1 := by
  simp only [start_read_update] at h
  split at h
  · exact ringbuf_put_header h
  · split at h
    · exact absurd h (by simp)
    · split at h
      · simp only [Outcome.returned.injEq] at h
        subst h
        exact ⟨rfl, rfl, rfl, rfl, rfl, rfl, rfl⟩
      · exact ringbuf_put_header h

theorem end_read_compact_header :
    ∀ (fuel : Nat) (m m1 : SharedInfo), end_read_compact fuel m = .returned m1 →
      SameHeader m m1 := by
  intro fuel
  induction fuel with
  | zero =>
    intro m m1 h
    exact absurd h (by simp [end_read_compact])
  | succ k ih =>
    intro m m1 h
    simp only [end_read_compact] at h
    split at h
    · simp only [Outcome.returned.injEq] at h
      subst h
      exact ⟨rfl, rfl, rfl, rfl, rfl, rfl, rfl⟩
    · split at h
      · exact absurd h (by simp)
      · split at h
        · exact ih (ringbuf_remove_first m) m1 h
        · simp only [Outcome.returned.injEq] at h
          subst h
          exact ⟨rfl, rfl, rfl, rfl, rfl, rfl, rfl⟩

theorem end_read_update_header {m m1 : SharedInfo} {v : Nat}
    (h : end_read_update m v = .returned m1) : SameHeader m m1 := by
  simp only [end_read_update] at h
  split at h
  · exact absurd h (by simp)
  · exact absurd h (by simp)
  · split at h
    · exact absurd h (by simp)
    · split at h
      · exact absurd h (by simp)
      · split at h
        · exact end_read_compact_header _ (ringbuf_remove_first m) m1 h
        · split at h
          · simp only [Outcome.returned.injEq] at h
            subst h
            exact ⟨rfl, rfl, rfl, rfl, rfl, rfl, rfl⟩
          · exact absurd h (by simp)

theorem start_read_version {m m1 : SharedInfo} {g g1 : SharedGroup}
    (h : start_read m g = .returned (m1, g1)) :
    m1.current_version = m.current_version := by
  simp only [start_read] at h
  split at h
  · exact absurd h (by simp)
  · split at h
    · rename_i m2 hupd
      simp only [Outcome.returned.injEq, Prod.mk.injEq] at h
      rw [← h.1]
      exact (start_read_update_header hupd).2.2.2.2.2.1
    · exact absurd h (by simp)
    · exact absurd h (by simp)
    · exact absurd h (by simp)

theorem end_read_version {m m1 : SharedInfo} {g g1 : SharedGroup}
    (h : end_read m g = .returned (m1, g1)) :
    m1.current_version = m.current_version := by
  simp only [end_read] at h
  split at h
  · exact absurd h (by simp)
  · split at h
    · exact absurd h (by simp)
    · split at h
      · rename_i m2 hupd
        simp only [Outcome.returned.injEq, Prod.mk.injEq] at h
        rw [← h.1]
        exact (end_read_update_header hupd).2.2.2.2.2.1
      · exact absurd h (by simp)
      · exact absurd h (by simp)
      · exact absurd h (by simp)

theorem start_write_version {m m1 : SharedInfo} {g g1 : SharedGroup}
    (h : start_write m g = .returned (m1, g1)) :
    m1.current_version = m.current_version := by
  simp only [start_write] at h
  split at h
  · exact absurd h (by simp)
  · split at h <;>
    · simp only [Outcome.returned.injEq, Prod.mk.injEq] at h
      rw [← h.1]

theorem end_write_version {m m1 : SharedInfo} {g g1 : SharedGroup} {new_top new_size : Nat}
    (h : end_write m g new_top new_size = .returned (m1, g1)) :
    m1.current_version = add32 m.current_version 1 := by
  simp only [end_write] at h
  split at h
  · exact absurd h (by simp)
  · simp only [Outcome.returned.injEq, Prod.mk.injEq] at h
    rw [← h.1]

theorem absorb_returned {s s1 : System} {h : Nat} {o : Outcome (SharedInfo × SharedGroup)}
    (hret : s.absorb h o = .returned s1) :
    o = .returned (s1.info, s1.handles h) ∧
      s1.handles = Function.update s.handles h (s1.handles h) := by
  cases o with
  | returned p =>
    obtain ⟨m, g⟩ := p
    simp only [System.absorb, Outcome.returned.injEq] at hret
    subst hret
    simp
  | aborted f p => exact absurd hret (by simp [System.absorb])
  | blocked p => exact absurd hret (by simp [System.absorb])
  | diverges p => exact absurd hret (by simp [System.absorb])

/-- One returned call moves `current_version` by one (in `uint32_t`) when it is a commit
and not at all otherwise. -/
theorem step_version {s s1 : System} {op : Op} (h : s.step op = .returned s1) :
    s1.info.current_version =
      if op.isCommit = true then add32 s.info.current_version 1
      else s.info.current_version := by
  cases op with
  | start_read k =>
    simp only [Op.isCommit, Bool.false_eq_true, if_false]
    exact start_read_version (absorb_returned h).1
  | end_read k =>
    simp only [Op.isCommit, Bool.false_eq_true, if_false]
    exact end_read_version (absorb_returned h).1
  | start_write k =>
    simp only [Op.isCommit, Bool.false_eq_true, if_false]
    exact start_write_version (absorb_returned h).1
  | end_write k t z =>
    simp only [Op.isCommit, if_true]
    exact end_write_version (absorb_returned h).1

theorem step_version_lt {s s1 : System} {op : Op} (h : s.step op = .returned s1)
    (hlt : s.info.current_version < UINT32_MOD) : s1.info.current_version < UINT32_MOD := by
  rw [step_version h]
  split
  · exact Nat.mod_lt _ (by decide)
  · exact hlt

theorem run_version :
    ∀ (ops : List Op) (s s1 : System), s.info.current_version < UINT32_MOD →
      s.run ops = .returned s1 →
      s1.info.current_version = (s.info.current_version + commitCount ops) % UINT32_MOD := by
  intro ops
  induction ops with
  | nil =>
    intro s s1 hlt h
    simp only [System.run, Outcome.returned.injEq] at h
    subst h
    simp only [commitCount, List.filter_nil, List.length_nil, Nat.add_zero]
    exact (Nat.mod_eq_of_lt hlt).symm
  | cons op ops ih =>
    intro s s1 hlt h
    simp only [System.run] at h
    split at h
    · rename_i s2 hstep
      have h2 := ih _ _ (step_version_lt hstep hlt) h
      have hv := step_version hstep
      rw [h2, hv]
      by_cases hc : op.isCommit = true
      · simp only [hc, if_true, add32, commitCount, List.filter_cons, List.length_cons,
          UINT32_MOD]
        omega
      · simp only [hc, if_false, commitCount, List.filter_cons, Bool.false_eq_true]
    · rename_i hne
      exact absurd h (by
        intro hc
        exact hne _ hc)

/-- C6: from the initialized record (`current_version = 0`), a sequence of calls that all
return and holds `K < 2^32` commits ends with `current_version = K`; every returned
`end_write` adds exactly 1 to a `current_version` below `2^32 - 1`, and every returned
`start_read`, `end_read` and `start_write` leaves `current_version` as it was. -/
theorem current_version_counts_commits (alloc : Group) (len : Nat) (ops : List Op)
    (s : System) (hrun : (System.initial alloc len).run ops = .returned s)
    (hK : commitCount ops < UINT32_MOD) :
    (System.initial alloc len).info.current_version = 0 ∧
    s.info.current_version = commitCount ops ∧
    (∀ (s0 s1 : System) (op : Op), s0.step op = .returned s1 →
      (op.isCommit = true → s0.info.current_version < UINT32_MAX →
        s1.info.current_version = s0.info.current_version + 1) ∧
      (op.isCommit = false → s1.info.current_version = s0.info.current_version)) := by
  refine ⟨rfl, ?_, ?_⟩
  · have h := run_version ops _ _ (Nat.zero_lt_succ _ : (0 : Nat) < UINT32_MOD) hrun
    rw [h]
    show (0 + commitCount ops) % UINT32_MOD = commitCount ops
    rw [Nat.zero_add]
    exact Nat.mod_eq_of_lt hK
  · intro s0 s1 op hstep
    have hv := step_version hstep
    refine ⟨?_, ?_⟩
    · intro hc hlt
      rw [hv, if_pos hc]
      simp only [add32, UINT32_MOD]
      simp only [UINT32_MAX] at hlt
      omega
    · intro hc
      rw [hv, hc]
      rfl

/-- C6 at a concrete run: one reader and one commit. -/
theorem current_version_counts_commits_witness :
    ((System.initial ⟨5, 6⟩ 0).run sampleRun).isReturned = true ∧
      ((System.initial ⟨5, 6⟩ 0).run sampleRun).state.info.current_version = 1 :=
  ⟨by decide,
   (current_version_counts_commits ⟨5, 6⟩ 0 sampleRun
      ((System.initial ⟨5, 6⟩ 0).run sampleRun).state rfl (by decide)).2.1⟩

/-- C7: the two-reader scenario, for every initial `(T0, S0)`, every committed `(T1, S1)`
and any three handles.  On the initialized record (version 0, top `T0`, empty ledger) the
first reader's `start_read` gives it the view `(T0, S0)` and version 0; a
`start_write`/`end_write` commit of `(T1, S1)` makes `current_version` 1 and
`current_top` `T1`; the second reader's `start_read` gives it `(T1, S1)` and version 1;
after the first reader's `end_read` the live ledger is exactly `{1, 1}`; after the second
reader's `end_read` the ledger is empty. -/
theorem two_reader_scenario (T0 S0 T1 S1 len : Nat) (r1 r2 w : SharedGroup) :
    (initialized ⟨T0, S0⟩ len).current_version = 0 ∧
    (initialized ⟨T0, S0⟩ len).current_top = T0 ∧
    live (initialized ⟨T0, S0⟩ len) = [] ∧
    ∃ m1 m2 m3 m4 m5 m6 w1 w2,
      start_read (initialized ⟨T0, S0⟩ len) r1 = .returned (m1, ⟨⟨T0, S0⟩, 0⟩) ∧
      start_write m1 w = .returned (m2, w1) ∧
      end_write m2 w1 T1 S1 = .returned (m3, w2) ∧
      m3.current_version = 1 ∧ m3.current_top = T1 ∧ m3.filesize = S1 ∧
      start_read m3 r2 = .returned (m4, ⟨⟨T1, S1⟩, 1⟩) ∧
      end_read m4 ⟨⟨T0, S0⟩, 0⟩ = .returned (m5, ⟨⟨T0, S0⟩, UINT32_MAX⟩) ∧
      live m5 = [⟨1, 1⟩] ∧
      end_read m5 ⟨⟨T1, S1⟩, 1⟩ = .returned (m6, ⟨⟨T1, S1⟩, UINT32_MAX⟩) ∧
      live m6 = [] ∧ ringbuf_is_empty m6 = true := by
  have hs0 := indexSafe_initialized ⟨T0, S0⟩ len
  have hl0 := live_initialized ⟨T0, S0⟩ len
  refine ⟨rfl, rfl, hl0, ?_⟩
  -- the first reader starts
  obtain ⟨m1, h1, hl1, hs1, hh1⟩ := start_read_spec r1 hs0 rfl
    (hasRoom_of_lt (by rw [← length_live, hl0]; decide))
  rw [hl0] at hl1
  have hl1 : live m1 = [⟨0, 1⟩] := hl1
  obtain ⟨hr1, hw1, _, _, _, hv1, _⟩ := hh1
  have hv1 : m1.current_version = 0 := hv1
  -- the writer commits
  obtain ⟨m2, m3, w1, w2, h2, h3, hl3, hs3, hv3, ht3, hf3, hr3, _⟩ :=
    commit_spec m1 w T1 S1 hw1 hr1
  rw [hv1] at hv3
  have hv3 : m3.current_version = 1 := hv3
  rw [hl1] at hl3
  -- the second reader starts
  obtain ⟨m4, h4, hl4, hs4, hh4⟩ := start_read_spec r2 (hs3 hs1) hr3
    (hasRoom_of_lt (by rw [← length_live, hl3]; decide))
  rw [hv3, ht3, hf3] at h4
  rw [hv3, hl3] at hl4
  have hl4 : live m4 = [⟨0, 1⟩, ⟨1, 1⟩] := hl4
  obtain ⟨hr4, _⟩ := hh4
  -- the first reader ends
  have h5 := end_read_spec ⟨⟨T0, S0⟩, 0⟩ hs4 (hr4.trans hr3)
    (show (0 : Nat) ≠ UINT32_MAX by decide)
  simp only [hl4] at h5
  obtain ⟨m5, h5, hl5, hs5, hh5⟩ := h5
  obtain ⟨hr5, _⟩ := hh5
  -- the second reader ends
  have h6 := end_read_spec ⟨⟨T1, S1⟩, 1⟩ hs5 (hr5.trans (hr4.trans hr3))
    (show (1 : Nat) ≠ UINT32_MAX by decide)
  simp only [hl5] at h6
  obtain ⟨m6, h6, hl6, hs6, _⟩ := h6
  refine ⟨m1, m2, m3, m4, m5, m6, w1, w2, h1, h2, h3, hv3, ht3, hf3, h4, h5, hl5, h6, hl6,
    ?_⟩
  rw [ringbuf_is_empty, ← length_live, hl6]
  decide

/-! ## The ledger updates on lists -/

theorem bump_nil (cv : Nat) : bump cv [] = [⟨cv, 1⟩] := rfl

theorem bump_concat (cv : Nat) (init : List ReadCount) (t : ReadCount) :
    bump cv (init ++ [t]) =
      if t.version = cv then init ++ [⟨t.version, add32 t.count 1⟩]
      else init ++ [t] ++ [⟨cv, 1⟩] := by
  simp only [bump, List.getLast?_concat, List.dropLast_concat]

theorem add32_one {c : Nat} (h : c < UINT32_MAX) : add32 c 1 = c + 1 := by
  simp only [UINT32_MAX] at h
  simp only [add32, UINT32_MOD]
  omega

theorem firstIndex_split (v : Nat) :
    ∀ (l : List ReadCount) (e : ReadCount), l[firstIndex v l]? = some e →
      ∃ pre post, l = pre ++ e :: post ∧ firstIndex v l = pre.length ∧ e.version = v ∧
        ∀ x ∈ pre, x.version ≠ v := by
  intro l
  induction l with
  | nil =>
    intro e h
    simp at h
  | cons a t ih =>
    intro e h
    by_cases ha : a.version = v
    · simp only [firstIndex, ha, if_true, List.getElem?_cons_zero, Option.some.injEq] at h
      subst h
      exact ⟨[], t, rfl, by simp [firstIndex, ha], ha, by simp⟩
    · simp only [firstIndex, ha, if_false, List.getElem?_cons_succ] at h
      obtain ⟨pre, post, hl, hi, hv, hpre⟩ := ih e h
      refine ⟨a :: pre, post, by rw [hl]; rfl, by simp [firstIndex, ha, hi], hv, ?_⟩
      intro x hx
      rcases List.mem_cons.1 hx with rfl | hx
      · exact ha
      · exact hpre x hx

/-- The update of `end_read` on a list split at the first entry of the version. -/
theorem release_split (v : Nat) (pre post : List ReadCount) (e : ReadCount)
    (hv : e.version = v) (hpre : ∀ x ∈ pre, x.version ≠ v) :
    release v (pre ++ e :: post) =
      if e.count = 1 ∧ pre = [] then some (post.dropWhile isHole)
      else if 0 < e.count then some (pre ++ ⟨e.version, e.count - 1⟩ :: post)
      else none := by
  have hidx : firstIndex v (pre ++ e :: post) = pre.length := by
    induction pre with
    | nil => simp [firstIndex, hv]
    | cons a t ih =>
      have ha : a.version ≠ v := hpre a (List.mem_cons_self a t)
      have iht := ih (fun x hx => hpre x (List.mem_cons_of_mem a hx))
      rw [List.cons_append, List.length_cons]
      simp only [firstIndex, ha, if_false, iht]
  have hget : (pre ++ e :: post)[pre.length]? = some e := by
    rw [List.getElem?_append_right (Nat.le_refl _)]
    simp
  have hset : ∀ x, (pre ++ e :: post).set pre.length x = pre ++ x :: post := by
    intro x
    rw [List.set_append_right _ _ (Nat.le_refl _)]
    simp
  have hzero : pre.length = 0 ↔ pre = [] := List.length_eq_zero
  simp only [release, hidx, hget, hset, hzero]
  by_cases hp : e.count = 1 ∧ pre = []
  · rw [if_pos hp, if_pos hp, hp.2]
    rfl
  · rw [if_neg hp, if_neg hp]

theorem start_write_returned {m m1 : SharedInfo} {g g1 : SharedGroup}
    (h : start_write m g = .returned (m1, g1)) :
    m1 = { m with writemutex := true } ∧ g1.m_version = g.m_version := by
  simp only [start_write] at h
  split at h
  · exact absurd h (by simp)
  · split at h <;>
    · simp only [Outcome.returned.injEq, Prod.mk.injEq] at h
      exact ⟨h.1.symm, by rw [← h.2]⟩

theorem end_write_returned {m m1 : SharedInfo} {g g1 : SharedGroup} {new_top new_size : Nat}
    (h : end_write m g new_top new_size = .returned (m1, g1)) :
    m1 = { m with readmutex := false, current_top := new_top, filesize := new_size,
                  current_version := add32 m.current_version 1, writemutex := false } ∧
      g1.m_version = g.m_version := by
  simp only [end_write] at h
  split at h
  · exact absurd h (by simp)
  · simp only [Outcome.returned.injEq, Prod.mk.injEq] at h
    exact ⟨h.1.symm, by rw [← h.2]⟩

theorem end_read_returned_active {m : SharedInfo} {g : SharedGroup}
    {p : SharedInfo × SharedGroup} (h : end_read m g = .returned p) :
    g.m_version ≠ UINT32_MAX := by
  intro hc
  rw [end_read_marker m g hc] at h
  exact absurd h (by simp)

/-- A returned `end_read` on an index-safe record with a free read mutex: the live list
of the new record is the `release` of the old one. -/
theorem end_read_returned {m m1 : SharedInfo} {g g1 : SharedGroup} (hsafe : IndexSafe m)
    (hfree : m.readmutex = false) (h : end_read m g = .returned (m1, g1)) :
    release g.m_version (live m) = some (live m1) ∧ IndexSafe m1 ∧ SameHeader m m1 := by
  have hspec := end_read_spec g hsafe hfree (end_read_returned_active h)
  cases hr : release g.m_version (live m) with
  | none =>
    simp only [hr] at hspec
    obtain ⟨f, hf⟩ := hspec
    rw [hf] at h
    exact absurd h (by simp)
  | some l =>
    simp only [hr] at hspec
    obtain ⟨m2, hrun, hlive, hs2, hh⟩ := hspec
    rw [hrun, Outcome.returned.injEq, Prod.mk.injEq] at h
    rw [← h.1]
    exact ⟨by rw [hlive], hs2, hh⟩

theorem firstIndex_lt_of_mem {v : Nat} {l : List ReadCount} {e : ReadCount} (he : e ∈ l)
    (hv : e.version = v) : firstIndex v l < l.length := by
  induction l with
  | nil => cases he
  | cons a t ih =>
    simp only [firstIndex, List.length_cons]
    split
    · omega
    · next hne =>
      rcases List.mem_cons.1 he with rfl | ht
      · exact absurd hv hne
      · have := ih ht
        omega

theorem firstIndex_before {v : Nat} :
    ∀ (l : List ReadCount) (j : Nat) (x : ReadCount), j < firstIndex v l → l[j]? = some x →
      x.version ≠ v := by
  intro l
  induction l with
  | nil =>
    intro j x hj
    simp [firstIndex] at hj
  | cons a t ih =>
    intro j x hj hx
    by_cases ha : a.version = v
    · simp [firstIndex, ha] at hj
    · simp only [firstIndex, ha, if_false] at hj
      cases j with
      | zero =>
        simp only [List.getElem?_cons_zero, Option.some.injEq] at hx
        rw [← hx]
        exact ha
      | succ k =>
        simp only [List.getElem?_cons_succ] at hx
        exact ih k x (by omega) hx

theorem getElem?_live (m : SharedInfo) (i : Nat) (h : i < ringbuf_size m) :
    (live m)[i]? = some (m.readers (slot (m.get_pos + i))) := by
  rw [List.getElem?_eq_getElem (by rw [length_live]; exact h), getElem_live]

/-- C14. On every record with mask 31 and both cursors at most 31, and for every version
`v`, the scan of `ringbuf_find` terminates with a value `r` and reads inside the array.
`r` is the not-found value `(size_t)-1` exactly when no slot met on the walk from
`get_pos` towards `put_pos` holds version `v`; otherwise `r` is the position
`(get_pos + i) mod 32` of the first such slot: the slot holds `v` and no earlier slot of
the walk does. -/
theorem ringbuf_find_first_match (m : SharedInfo) (v : Nat) (hsafe : IndexSafe m) :
    ∃ r, ringbuf_find m v = .val r ∧
      (r = SIZE_MAX ↔
        ∀ i, i < ringbuf_size m → (m.readers (slot (m.get_pos + i))).version ≠ v) ∧
      (r ≠ SIZE_MAX →
        ∃ i, i < ringbuf_size m ∧ r = (m.get_pos + i) % 32 ∧
          (m.readers (slot (m.get_pos + i))).version = v ∧
          ∀ j, j < i → (m.readers (slot (m.get_pos + j))).version ≠ v) := by
  have hfind := ringbuf_find_eq hsafe v
  by_cases hi : firstIndex v (live m) < ringbuf_size m
  · have hat : (m.readers (slot (m.get_pos + firstIndex v (live m)))).version = v :=
      firstIndex_version v (live m) _ (getElem?_live m _ hi)
    have hne : (m.get_pos + firstIndex v (live m)) % 32 ≠ SIZE_MAX := by
      simp only [SIZE_MAX]
      omega
    refine ⟨(m.get_pos + firstIndex v (live m)) % 32, ?_, ?_, ?_⟩
    · rw [hfind, if_pos hi]
    · constructor
      · intro h
        exact absurd h hne
      · intro h
        exact absurd hat (h _ hi)
    · intro _
      refine ⟨firstIndex v (live m), hi, rfl, hat, ?_⟩
      intro j hj
      exact firstIndex_before (live m) j _ hj (getElem?_live m j (by omega))
  · refine ⟨SIZE_MAX, ?_, ?_, ?_⟩
    · rw [hfind, if_neg hi]
    · constructor
      · intro _ i hlt hv
        have hmem : m.readers (slot (m.get_pos + i)) ∈ live m :=
          List.getElem?_mem (getElem?_live m i hlt)
        have := firstIndex_lt_of_mem hmem hv
        rw [length_live] at this
        exact hi this
      · intro _
        rfl
    · intro h
      exact absurd rfl h

/-- C14 at a concrete input: in `holeRecord` the scan for version 1 passes the head
(version 0) and stops at the second live slot. -/
theorem ringbuf_find_first_match_witness :
    ∃ r, ringbuf_find holeRecord 1 = .val r ∧
      (r = SIZE_MAX ↔
        ∀ i, i < ringbuf_size holeRecord →
          (holeRecord.readers (slot (holeRecord.get_pos + i))).version ≠ 1) ∧
      (r ≠ SIZE_MAX →
        ∃ i, i < ringbuf_size holeRecord ∧ r = (holeRecord.get_pos + i) % 32 ∧
          (holeRecord.readers (slot (holeRecord.get_pos + i))).version = 1 ∧
          ∀ j, j < i → (holeRecord.readers (slot (holeRecord.get_pos + j))).version ≠ 1) :=
  ringbuf_find_first_match holeRecord 1 ⟨rfl, by decide, by decide⟩

/-- Below 31 live entries a `ringbuf_put` raises `ringbuf_size` by one. -/
theorem ringbuf_size_put {m : SharedInfo} (h : IndexSafe m) (hroom : ringbuf_size m < 31)
    (v : ReadCount) :
    ∃ m1, ringbuf_put m v = .returned m1 ∧ ringbuf_size m1 = ringbuf_size m + 1 := by
  refine ⟨_, ringbuf_put_eq h v, ?_⟩
  rw [← length_live, live_put h hroom, List.length_append, length_live]
  rfl

/-- C15 (the code at the failing input): `almostFull` holds 31 live entries, fewer than
the 32 of `ringbuf_capacity`; a `ringbuf_put` returns, and `ringbuf_size` then reads 0,
not 32. -/
theorem ringbuf_put_size_wraps :
    ringbuf_size almostFull = 31 ∧ ringbuf_capacity almostFull = 32 ∧
      ∃ m1, ringbuf_put almostFull ⟨31, 1⟩ = .returned m1 ∧ ringbuf_size m1 = 0 :=
  ⟨by decide, by decide, _, rfl, by decide⟩

/-- C16. With the read mutex free `end_write` returns with `current_top` and `filesize`
set to the values the store returned and `current_version` incremented in `uint32_t`
(by exactly one below `2^32 - 1`), and with `capacity`, `put_pos`, `get_pos`, every
`readers` slot and `infosize` as before. `start_write` leaves every field of the shared
record but the write mutex as it was, whether it returns or waits; with the write mutex
free it returns holding it. -/
theorem end_write_frame (m : SharedInfo) (g : SharedGroup) (new_top new_size : Nat)
    (hfree : m.readmutex = false) :
    (∃ m1 g1, end_write m g new_top new_size = .returned (m1, g1) ∧
      m1.current_top = new_top ∧ m1.filesize = new_size ∧
      m1.current_version = add32 m.current_version 1 ∧
      (m.current_version < UINT32_MAX → m1.current_version = m.current_version + 1) ∧
      m1.capacity = m.capacity ∧ m1.put_pos = m.put_pos ∧ m1.get_pos = m.get_pos ∧
      m1.readers = m.readers ∧ m1.infosize = m.infosize) ∧
    (start_write m g).state.1 =
      { m with writemutex := (start_write m g).state.1.writemutex } ∧
    (m.writemutex = false →
      ∃ g1, start_write m g = .returned ({ m with writemutex := true }, g1)) := by
  refine ⟨⟨_, _, end_write_spec m g new_top new_size hfree, rfl, rfl, rfl,
    fun h => add32_one h, rfl, rfl, rfl, rfl, rfl⟩, ?_, ?_⟩
  · cases hw : m.writemutex with
    | false => rw [start_write_spec m g hw]; rfl
    | true =>
      have hb : start_write m g = .blocked (m, g) := by
        simp only [start_write, hw, if_true]
      rw [hb]
      cases m
      simp only [Outcome.state] at hw ⊢
  · intro hw
    exact ⟨_, start_write_spec m g hw⟩

/-- C16 at a concrete input: a commit of top 7 and size 8 on the initialized record. -/
theorem end_write_frame_witness :
    ∃ m1 g1, end_write (initialized ⟨0, 0⟩ 0) ⟨⟨0, 0⟩, UINT32_MAX⟩ 7 8 = .returned (m1, g1) ∧
      m1.current_top = 7 ∧ m1.filesize = 8 ∧ m1.current_version = 1 ∧
      m1.put_pos = 0 ∧ m1.get_pos = 0 :=
  let ⟨m1, g1, h, ht, hs, _, hv, _, hp, hg, _⟩ :=
    (end_write_frame (initialized ⟨0, 0⟩ 0) ⟨⟨0, 0⟩, UINT32_MAX⟩ 7 8 rfl).1
  ⟨m1, g1, h, ht, hs, hv (by decide), hp, hg⟩

/-! ## Index safety -/

/-- A push onto 31 live entries brings `put_pos` round to `get_pos`: no entry is live
afterwards. -/
theorem live_put_full {m : SharedInfo} (h : IndexSafe m) (hfull : ringbuf_size m = 31)
    (v : ReadCount) :
    live { m with readers := Function.update m.readers (slot m.put_pos) v,
                  put_pos := (m.put_pos + 1) % 32 } = [] := by
  have h1 := ringbuf_size_eq (indexSafe_put h (Function.update m.readers (slot m.put_pos) v))
  have h0 := ringbuf_size_eq h
  simp only at h1
  obtain ⟨hc, hp, hg⟩ := h
  apply List.eq_nil_of_length_eq_zero
  rw [length_live, h1]
  omega

theorem start_read_update_full {m : SharedInfo} (h : IndexSafe m)
    (hroom : hasRoom m = false) :
    ∃ m1, start_read_update m = .returned m1 ∧ live m1 = [] ∧ IndexSafe m1 ∧
      SameHeader m m1 := by
  have hsz := ringbuf_size_le h
  simp only [hasRoom, Bool.or_eq_false_iff, Bool.not_eq_false', decide_eq_false_iff_not]
    at hroom
  obtain ⟨hp, hlt⟩ := hroom
  have hfull : ringbuf_size m = 31 := by omega
  have hemp : ringbuf_is_empty m = false := by
    simp [ringbuf_is_empty, hfull]
  have hlast := ringbuf_get_last_eq h (by omega)
  have hv : (m.readers (slot (m.get_pos + (ringbuf_size m - 1)))).version
      ≠ m.current_version := by
    simpa [pushes, hemp, hlast] using hp
  refine ⟨{ m with
    readers := Function.update m.readers (slot m.put_pos) ⟨m.current_version, 1⟩,
    put_pos := (m.put_pos + 1) % 32 }, ?_, live_put_full h hfull _, indexSafe_put h _,
    ⟨rfl, rfl, rfl, rfl, rfl, rfl, rfl⟩⟩
  simp only [start_read_update, hemp, hlast, hv, Bool.false_eq_true, if_false]
  exact ringbuf_put_eq h _

/-- Effect of `start_read` with a free read mutex on any index-safe record: it returns;
the live list becomes its `bump`, or the empty list when the push meets 31 live
entries. -/
theorem start_read_total {m : SharedInfo} (g : SharedGroup) (h : IndexSafe m)
    (hfree : m.readmutex = false) :
    ∃ m1, start_read m g =
        .returned (m1, ⟨⟨m.current_top, m.filesize⟩, m.current_version⟩) ∧
      live m1 = (if hasRoom m = true then bump m.current_version (live m) else []) ∧
      IndexSafe m1 ∧ SameHeader m m1 := by
  by_cases hroom : hasRoom m = true
  · obtain ⟨m1, h1, h2, h3, h4⟩ := start_read_spec g h hfree hroom
    exact ⟨m1, h1, by rw [if_pos hroom]; exact h2, h3, h4⟩
  · have hroom0 : hasRoom { m with readmutex := true } = false := by
      simpa using hroom
    have hsafe : IndexSafe { m with readmutex := true } := h
    obtain ⟨m2, hrun, hlive, hs2, hh⟩ := start_read_update_full hsafe hroom0
    refine ⟨{ m2 with readmutex := false }, ?_, ?_, hs2, ?_⟩
    · simp only [start_read, hfree, Bool.false_eq_true, if_false, hrun,
        Group.update_from_shared]
    · rw [if_neg hroom]
      exact hlive
    · obtain ⟨_, h2, h3, h4, h5, h6, h7⟩ := hh
      exact ⟨hfree.symm, h2, h3, h4, h5, h6, h7⟩

/-- The ways `start_read` goes on an index-safe record. -/
theorem start_read_cases {m : SharedInfo} (g : SharedGroup) (h : IndexSafe m) :
    start_read m g = .blocked (m, g) ∨
      ∃ m1 g1, start_read m g = .returned (m1, g1) ∧ IndexSafe m1 := by
  cases hfree : m.readmutex with
  | true =>
    left
    simp only [start_read, hfree, if_true]
  | false =>
    right
    obtain ⟨m1, h1, _, h3, _⟩ := start_read_total g h hfree
    exact ⟨m1, _, h1, h3⟩

/-- The ways the critical section of `end_read` goes on an index-safe record. -/
theorem end_read_update_cases {m : SharedInfo} (h : IndexSafe m) (v : Nat) :
    (∃ m1, end_read_update m v = .returned m1 ∧ IndexSafe m1) ∨
      end_read_update m v = .aborted (.assertion 143) m ∨
      end_read_update m v = .aborted (.assertion 154) m := by
  by_cases hi : firstIndex v (live m) < ringbuf_size m
  · rw [end_read_update_found h v hi]
    by_cases hpop : (m.readers (slot (m.get_pos + firstIndex v (live m)))).count = 1 ∧
        firstIndex v (live m) = 0
    · rw [if_pos hpop]
      have h1 := indexSafe_remove_first h
      obtain ⟨x, hx, hrun, _⟩ := end_read_compact_eq (ringbuf_size (ringbuf_remove_first m))
        (ringbuf_remove_first m) UINT32_MOD h1 rfl
        (by have := ringbuf_size_le h1; simp only [UINT32_MOD]; omega)
      exact Or.inl ⟨_, hrun, ⟨h.1, h.2.1, hx⟩⟩
    · rw [if_neg hpop]
      by_cases hc : 0 < (m.readers (slot (m.get_pos + firstIndex v (live m)))).count
      · rw [if_pos hc]
        exact Or.inl ⟨_, rfl, ⟨h.1, h.2.1, h.2.2⟩⟩
      · rw [if_neg hc]
        exact Or.inr (Or.inr rfl)
  · exact Or.inr (Or.inl (end_read_update_missing h v hi))

/-- The ways `end_read` goes on an index-safe record. -/
theorem end_read_cases {m : SharedInfo} (g : SharedGroup) (h : IndexSafe m) :
    end_read m g = .aborted (.assertion 137) (m, g) ∨
      end_read m g = .blocked (m, g) ∨
      (∃ m1 g1, end_read m g = .returned (m1, g1) ∧ IndexSafe m1) ∨
      end_read m g = .aborted (.assertion 143) ({ m with readmutex := true }, g) ∨
      end_read m g = .aborted (.assertion 154) ({ m with readmutex := true }, g) := by
  by_cases hv : g.m_version = UINT32_MAX
  · exact Or.inl (end_read_marker m g hv)
  · cases hfree : m.readmutex with
    | true =>
      right; left
      simp only [end_read, hv, if_false, hfree, if_true]
    | false =>
      right; right
      have hsafe : IndexSafe { m with readmutex := true } := h
      rcases end_read_update_cases hsafe g.m_version with ⟨m2, hrun, hs2⟩ | hrun | hrun
      · left
        refine ⟨{ m2 with readmutex := false }, { g with m_version := UINT32_MAX }, ?_, hs2⟩
        simp only [end_read, hv, if_false, hfree, Bool.false_eq_true, hrun]
      · right; left
        simp only [end_read, hv, if_false, hfree, Bool.false_eq_true, hrun]
      · right; right
        simp only [end_read, hv, if_false, hfree, Bool.false_eq_true, hrun]

/-- C17. The initialization block returns, on the zeroed mapping of a first opener as on
any record whose read mutex is free, and leaves mask 31 and both cursors 0. On a record
with mask 31 and both cursors at most 31 every operation keeps that, however it ends:
`start_read`, `end_read`, `end_write`, `start_write`, `ringbuf_put` and
`ringbuf_remove_first`; and `start_read`, `end_write` (free read mutex), `ringbuf_put` and
an `end_read` that meets none of its assertions do return. On such a record every index
used on `readers` is below 32: `put_pos`, `get_pos`, the tail position
`(put_pos - 1) & mask`, and every index `ringbuf_find` returns as found; no call takes a
reference outside the array, and the store of `ringbuf_put` stays inside it. -/
theorem index_safety (m : SharedInfo) (hsafe : IndexSafe m) :
    (∀ m0 alloc len, m0.readmutex = false →
      ∃ m1, SharedGroup_init m0 alloc len = .returned m1 ∧ IndexSafe m1 ∧
        m1.capacity = 31 ∧ m1.put_pos = 0 ∧ m1.get_pos = 0) ∧
    (∀ alloc len, ∃ m1, SharedGroup_init SharedInfo.zeroed alloc len = .returned m1 ∧
      IndexSafe m1) ∧
    (∀ m0 alloc len m1, SharedGroup_init m0 alloc len = .returned m1 → IndexSafe m1) ∧
    (∀ g, IndexSafe (start_read m g).state.1) ∧
    (∀ g, IndexSafe (end_read m g).state.1) ∧
    (∀ g new_top new_size, IndexSafe (end_write m g new_top new_size).state.1) ∧
    (∀ g, IndexSafe (start_write m g).state.1) ∧
    (∀ v, IndexSafe (ringbuf_put m v).state) ∧
    IndexSafe (ringbuf_remove_first m) ∧
    (m.put_pos < 32 ∧ m.get_pos < 32 ∧ (sub32 m.put_pos 1 &&& m.capacity) < 32) ∧
    (ringbuf_get m.put_pos ≠ none ∧ ringbuf_get_first m ≠ none ∧
      ringbuf_get_last m ≠ none) ∧
    (∀ v, ∃ r, ringbuf_find m v = .val r ∧ (r = SIZE_MAX ∨ (r < 32 ∧ ringbuf_get r ≠ none))) ∧
    (∀ g s, start_read m g ≠ .aborted .out_of_bounds s) ∧
    (∀ g s, end_read m g ≠ .aborted .out_of_bounds s) ∧
    (∀ v s, ringbuf_put m v ≠ .aborted .out_of_bounds s) ∧
    (∀ g, m.readmutex = false →
      ∃ m1 g1, start_read m g = .returned (m1, g1) ∧ IndexSafe m1) ∧
    (∀ g l, m.readmutex = false → g.m_version ≠ UINT32_MAX →
      release g.m_version (live m) = some l →
      ∃ m1 g1, end_read m g = .returned (m1, g1) ∧ IndexSafe m1) ∧
    (∀ g new_top new_size, m.readmutex = false →
      ∃ m1 g1, end_write m g new_top new_size = .returned (m1, g1) ∧ IndexSafe m1) ∧
    (∀ v, ∃ m1, ringbuf_put m v = .returned m1 ∧ IndexSafe m1 ∧ m1.past = m.past) := by
  have htail : (sub32 m.put_pos 1 &&& m.capacity) < 32 := by
    rw [hsafe.1, land31]
    omega
  have hinit : ∀ m0 alloc len, m0.readmutex = false →
      ∃ m1, SharedGroup_init m0 alloc len = .returned m1 ∧ IndexSafe m1 ∧
        m1.capacity = 31 ∧ m1.put_pos = 0 ∧ m1.get_pos = 0 := by
    intro m0 alloc len hfree
    refine ⟨{ m0 with readmutex := false,
                      filesize := alloc.filelen,
                      infosize := len % UINT32_MOD,
                      current_top := alloc.topref,
                      current_version := 0,
                      capacity := 32 - 1,
                      put_pos := 0,
                      get_pos := 0 }, ?_, ⟨rfl, Nat.zero_le _, Nat.zero_le _⟩, rfl, rfl, rfl⟩
    simp only [SharedGroup_init, hfree, Bool.false_eq_true, if_false]
  refine ⟨hinit, ?_, ?_, ?_, ?_, ?_, ?_, ?_, indexSafe_remove_first hsafe, ?_, ?_, ?_, ?_, ?_,
    ?_, ?_, ?_, ?_, ?_⟩
  · intro alloc len
    obtain ⟨m1, h1, h2, _⟩ := hinit SharedInfo.zeroed alloc len rfl
    exact ⟨m1, h1, h2⟩
  · intro m0 alloc len m1 h
    simp only [SharedGroup_init] at h
    split at h
    · cases h
    · cases h
      exact ⟨rfl, Nat.zero_le _, Nat.zero_le _⟩
  · intro g
    rcases start_read_cases g hsafe with h | ⟨m1, g1, h, hs⟩
    · rw [h]; exact hsafe
    · rw [h]; exact hs
  · intro g
    rcases end_read_cases g hsafe with h | h | ⟨m1, g1, h, hs⟩ | h | h
    · rw [h]; exact hsafe
    · rw [h]; exact hsafe
    · rw [h]; exact hs
    · rw [h]; exact hsafe
    · rw [h]; exact hsafe
  · intro g new_top new_size
    simp only [end_write]
    split <;> exact hsafe
  · intro g
    simp only [start_write]
    split
    · exact hsafe
    · split <;> exact hsafe
  · intro v
    rw [ringbuf_put_eq hsafe v]
    exact indexSafe_put hsafe _
  · have := hsafe.2.1
    have := hsafe.2.2
    exact ⟨by omega, by omega, htail⟩
  · refine ⟨?_, ?_, ?_⟩
    · rw [ringbuf_get_of_le hsafe.2.1]
      exact Option.some_ne_none _
    · rw [ringbuf_get_first, ringbuf_get_of_le hsafe.2.2]
      exact Option.some_ne_none _
    · rw [ringbuf_get_last, ringbuf_get_of_le (by omega)]
      exact Option.some_ne_none _
  · intro v
    refine ⟨_, ringbuf_find_eq hsafe v, ?_⟩
    by_cases hi : firstIndex v (live m) < ringbuf_size m
    · right
      rw [if_pos hi]
      have hlt : (m.get_pos + firstIndex v (live m)) % 32 < 32 := Nat.mod_lt _ (by decide)
      refine ⟨hlt, ?_⟩
      rw [ringbuf_get_of_le (by omega)]
      exact Option.some_ne_none _
    · left
      rw [if_neg hi]
  · intro g s hs
    rcases start_read_cases g hsafe with h | ⟨m1, g1, h, _⟩ <;> rw [h] at hs <;> cases hs
  · intro g s hs
    rcases end_read_cases g hsafe with h | h | ⟨m1, g1, h, _⟩ | h | h <;> rw [h] at hs <;>
      cases hs
  · intro v s hs
    rw [ringbuf_put_eq hsafe v] at hs
    cases hs
  · intro g hfree
    obtain ⟨m1, h1, _, h3, _⟩ := start_read_total g hsafe hfree
    exact ⟨m1, _, h1, h3⟩
  · intro g l hfree hv hrel
    have hspec := end_read_spec g hsafe hfree hv
    simp only [hrel] at hspec
    obtain ⟨m1, h1, _, h3, _⟩ := hspec
    exact ⟨m1, _, h1, h3⟩
  · intro g new_top new_size hfree
    exact ⟨_, _, end_write_spec m g new_top new_size hfree, hsafe⟩
  · intro v
    exact ⟨_, ringbuf_put_eq hsafe v, indexSafe_put hsafe _, rfl⟩

/-- C17 at a concrete input: the initialization block on the zeroed mapping returns an
index-safe record, and in `holeRecord`, whose cursors are 2 and 0, the indices are below
32 and `ringbuf_remove_first` keeps them so. -/
theorem index_safety_witness :
    (∃ m1, SharedGroup_init SharedInfo.zeroed ⟨5, 6⟩ 0 = .returned m1 ∧ IndexSafe m1) ∧
      IndexSafe (ringbuf_remove_first holeRecord) ∧
      (holeRecord.put_pos < 32 ∧ holeRecord.get_pos < 32 ∧
        (sub32 holeRecord.put_pos 1 &&& holeRecord.capacity) < 32) :=
  let h := index_safety holeRecord ⟨rfl, by decide, by decide⟩
  ⟨h.2.1 ⟨5, 6⟩ 0, h.2.2.2.2.2.2.2.2.1, h.2.2.2.2.2.2.2.2.2.1⟩

/-! ## The marker of a handle without a read -/

theorem bump_has_version (cv : Nat) (l : List ReadCount) :
    ∃ e, e ∈ bump cv l ∧ e.version = cv := by
  simp only [bump]
  cases hl : l.getLast? with
  | none => exact ⟨⟨cv, 1⟩, by simp, rfl⟩
  | some t =>
    simp only
    split
    · next hv => exact ⟨⟨t.version, add32 t.count 1⟩, by simp, hv⟩
    · exact ⟨⟨cv, 1⟩, by simp, rfl⟩

/-- C20. A handle without an active read carries the marker `2^32 - 1` in `m_version`,
the field into which `start_read` stores `current_version`. On a record with
`current_version = 2^32 - 1` a `start_read` returns with the handle's `m_version` equal
to the marker and, when the ledger has room, with a live entry of that version; the
`end_read` of the same handle then dies on its first assertion (line 137) and leaves the
record as it was. On an idle ledger with `current_version` below `2^32 - 1` the same two
calls both return, no entry is live afterwards and the handle is back at the marker. -/
theorem sentinel_collision (m : SharedInfo) (g : SharedGroup) (hsafe : IndexSafe m)
    (hfree : m.readmutex = false) :
    (SharedGroup.fresh g.m_group).m_version = 2 ^ 32 - 1 ∧
    (m.current_version = 2 ^ 32 - 1 →
      ∃ m1 g1, start_read m g = .returned (m1, g1) ∧ g1.m_version = 2 ^ 32 - 1 ∧
        (hasRoom m = true → ∃ e, e ∈ live m1 ∧ e.version = 2 ^ 32 - 1) ∧
        end_read m1 g1 = .aborted (.assertion 137) (m1, g1)) ∧
    (m.current_version < 2 ^ 32 - 1 → m.put_pos = m.get_pos →
      ∃ m1 g1 m2 g2, start_read m g = .returned (m1, g1) ∧
        live m1 = [⟨m.current_version, 1⟩] ∧
        end_read m1 g1 = .returned (m2, g2) ∧ live m2 = [] ∧
        ringbuf_is_empty m2 = true ∧ g2.m_version = 2 ^ 32 - 1) := by
  have hmax : UINT32_MAX = 2 ^ 32 - 1 := by decide
  refine ⟨hmax, ?_, ?_⟩
  · intro hcv
    obtain ⟨m1, h1, hlive, _, _⟩ := start_read_total g hsafe hfree
    refine ⟨m1, _, h1, hcv, ?_, end_read_marker m1 _ (hcv.trans hmax.symm)⟩
    intro hroom
    rw [if_pos hroom] at hlive
    obtain ⟨e, he, hv⟩ := bump_has_version m.current_version (live m)
    exact ⟨e, by rw [hlive]; exact he, hv.trans hcv⟩
  · intro hcv hidle
    have hemp : ringbuf_size m = 0 := by
      have := (ringbuf_is_empty_iff hsafe).2 hidle
      simpa [ringbuf_is_empty] using this
    have hnil : live m = [] := List.eq_nil_of_length_eq_zero (by rw [length_live, hemp])
    obtain ⟨m1, h1, hlive, hs1, hh1⟩ :=
      start_read_spec g hsafe hfree (hasRoom_of_lt (by omega))
    rw [hnil, bump_nil] at hlive
    have hv : (⟨⟨m.current_top, m.filesize⟩, m.current_version⟩ : SharedGroup).m_version
        ≠ UINT32_MAX := by
      show m.current_version ≠ UINT32_MAX
      rw [hmax]
      omega
    have hfree1 : m1.readmutex = false := hh1.1.trans hfree
    have hend := end_read_spec ⟨⟨m.current_top, m.filesize⟩, m.current_version⟩ hs1 hfree1 hv
    have hrel : release m.current_version (live m1) = some [] := by
      rw [hlive]
      simp [release, firstIndex]
    simp only [hrel] at hend
    obtain ⟨m2, h2, hlive2, hs2, _⟩ := hend
    refine ⟨m1, _, m2, _, h1, hlive, h2, hlive2, ?_, hmax⟩
    have hlen := length_live m2
    rw [hlive2] at hlen
    simp only [ringbuf_is_empty, ← hlen, List.length_nil, beq_self_eq_true]

/-- C20 at a concrete input: the initialized record, whose `current_version` is 0. -/
theorem sentinel_collision_witness :
    ∃ m1 g1 m2 g2, start_read (initialized ⟨0, 0⟩ 0) (SharedGroup.fresh ⟨0, 0⟩)
        = .returned (m1, g1) ∧
      live m1 = [⟨0, 1⟩] ∧
      end_read m1 g1 = .returned (m2, g2) ∧ live m2 = [] ∧
      ringbuf_is_empty m2 = true ∧ g2.m_version = 2 ^ 32 - 1 :=
  (sentinel_collision (initialized ⟨0, 0⟩ 0) (SharedGroup.fresh ⟨0, 0⟩)
    ⟨rfl, by decide, by decide⟩ rfl).2.2 (by decide) rfl

/-! ## The order of the live versions -/

theorem ascending_bump {l : List ReadCount} {cv : Nat}
    (h : Ascending (l.map ReadCount.version) cv) :
    Ascending ((bump cv l).map ReadCount.version) cv := by
  obtain ⟨hs, hle⟩ := h
  rcases List.eq_nil_or_concat l with rfl | ⟨init, t, rfl⟩
  · rw [bump_nil]
    refine ⟨List.pairwise_singleton _ _, ?_⟩
    intro x hx
    simp only [List.map_cons, List.map_nil, List.mem_singleton] at hx
    rw [hx]
  · rw [List.concat_eq_append] at hs hle ⊢
    rw [bump_concat]
    by_cases hv : t.version = cv
    · rw [if_pos hv]
      have hver : (init ++ [(⟨t.version, add32 t.count 1⟩ : ReadCount)]).map
          ReadCount.version = (init ++ [t]).map ReadCount.version := by simp
      rw [hver]
      exact ⟨hs, hle⟩
    · rw [if_neg hv, List.map_append]
      refine ⟨?_, ?_⟩
      · rw [List.pairwise_append]
        refine ⟨hs, List.pairwise_singleton _ _, ?_⟩
        intro a ha b hb
        simp only [List.map_cons, List.map_nil, List.mem_singleton] at hb
        have hale := hle a ha
        have hne : a ≠ cv := by
          intro hc
          rw [List.map_append, List.pairwise_append] at hs
          rw [List.map_append, List.mem_append] at ha
          rcases ha with hi | ht
          · have := hs.2.2 a hi t.version (by simp)
            have := hle t.version (by simp)
            omega
          · simp only [List.map_cons, List.map_nil, List.mem_singleton] at ht
            exact hv (ht ▸ hc)
        omega
      · intro x hx
        rcases List.mem_append.1 hx with h1 | h2
        · exact hle x h1
        · simp only [List.map_cons, List.map_nil, List.mem_singleton] at h2
          rw [h2]

theorem ascending_release {l l1 : List ReadCount} {v cv : Nat}
    (hr : release v l = some l1) (h : Ascending (l.map ReadCount.version) cv) :
    Ascending (l1.map ReadCount.version) cv := by
  obtain ⟨hs, hle⟩ := h
  cases hl : l[firstIndex v l]? with
  | none => simp [release, hl] at hr
  | some e =>
    obtain ⟨pre, post, hsplit, _, hv, hpre⟩ := firstIndex_split v l e hl
    rw [hsplit, release_split v pre post e hv hpre] at hr
    split at hr
    · next hpop =>
      have hnil := hpop.2
      simp only [Option.some.injEq] at hr
      have hsub : (l1.map ReadCount.version).Sublist (l.map ReadCount.version) := by
        rw [hsplit, hnil, ← hr, List.nil_append]
        exact ((List.dropWhile_sublist isHole).trans (List.sublist_cons_self e post)).map _
      exact ⟨hs.sublist hsub, fun x hx => hle x (hsub.subset hx)⟩
    · split at hr
      · simp only [Option.some.injEq] at hr
        have hver : l1.map ReadCount.version = l.map ReadCount.version := by
          rw [hsplit, ← hr]
          simp
        rw [hver]
        exact ⟨hs, hle⟩
      · cases hr

theorem ascending_mono {vs : List Nat} {cv cv1 : Nat} (h : Ascending vs cv)
    (hle : cv ≤ cv1) : Ascending vs cv1 :=
  ⟨h.1, fun x hx => Nat.le_trans (h.2 x hx) hle⟩

/-- One returned call keeps the order invariant, as long as a commit does not wrap
`current_version`. -/
theorem orderInv_step {s s1 : System} {op : Op} (hinv : OrderInv s)
    (hstep : s.step op = .returned s1)
    (hwrap : op.isCommit = true → s.info.current_version < UINT32_MAX) : OrderInv s1 := by
  obtain ⟨hsafe, hfree, hasc⟩ := hinv
  cases op with
  | start_read k =>
    have hret := (absorb_returned (s := s) (h := k) hstep).1
    obtain ⟨m1, hrun, hlive, hs1, hh⟩ := start_read_total (s.handles k) hsafe hfree
    rw [hrun, Outcome.returned.injEq, Prod.mk.injEq] at hret
    have hm : s1.info = m1 := hret.1.symm
    refine ⟨by rw [hm]; exact hs1, by rw [hm]; exact hh.1.trans hfree, ?_⟩
    rw [hm, hlive, hh.2.2.2.2.2.1]
    split
    · exact ascending_bump hasc
    · exact ⟨List.Pairwise.nil, fun x hx => absurd hx (List.not_mem_nil x)⟩
  | end_read k =>
    have hret := (absorb_returned (s := s) (h := k) hstep).1
    obtain ⟨hrel, hs1, hh⟩ := end_read_returned hsafe hfree hret
    refine ⟨hs1, hh.1.trans hfree, ?_⟩
    rw [hh.2.2.2.2.2.1]
    exact ascending_release hrel hasc
  | start_write k =>
    have hret := (absorb_returned (s := s) (h := k) hstep).1
    have hm := (start_write_returned hret).1
    have hl : live s1.info = live s.info := by
      rw [hm]
      exact live_congr rfl rfl rfl rfl
    refine ⟨by rw [hm]; exact hsafe, by rw [hm]; exact hfree, ?_⟩
    rw [hl]
    have hcv : s1.info.current_version = s.info.current_version := by rw [hm]
    rw [hcv]
    exact hasc
  | end_write k t z =>
    have hret := (absorb_returned (s := s) (h := k) hstep).1
    have hm := (end_write_returned hret).1
    have hl : live s1.info = live s.info := by
      rw [hm]
      exact live_congr rfl rfl rfl rfl
    refine ⟨by rw [hm]; exact hsafe, by rw [hm], ?_⟩
    rw [hl]
    have hcv : s1.info.current_version = s.info.current_version + 1 := by
      rw [hm]
      exact add32_one (hwrap rfl)
    rw [hcv]
    exact ascending_mono hasc (Nat.le_succ _)

theorem commitCount_cons (op : Op) (ops : List Op) :
    commitCount (op :: ops) = (if op.isCommit = true then 1 else 0) + commitCount ops := by
  simp only [commitCount, List.filter_cons]
  split
  · rw [List.length_cons]
    omega
  · omega

theorem orderInv_run :
    ∀ (ops : List Op) (s s1 : System), OrderInv s →
      s.info.current_version + commitCount ops < UINT32_MOD →
      s.run ops = .returned s1 → OrderInv s1 := by
  intro ops
  induction ops with
  | nil =>
    intro s s1 hinv _ h
    simp only [System.run, Outcome.returned.injEq] at h
    rw [← h]
    exact hinv
  | cons op ops ih =>
    intro s s1 hinv hK h
    rw [commitCount_cons] at hK
    simp only [System.run] at h
    split at h
    · rename_i s2 hstep
      have hv := step_version hstep
      by_cases hc : op.isCommit = true
      · rw [if_pos hc] at hK hv
        have hlt : s.info.current_version < UINT32_MAX := by
          simp only [UINT32_MOD] at hK
          simp only [UINT32_MAX]
          omega
        rw [add32_one hlt] at hv
        exact ih s2 s1 (orderInv_step hinv hstep (fun _ => hlt)) (by rw [hv]; omega) h
      · rw [if_neg hc] at hK hv
        exact ih s2 s1 (orderInv_step hinv hstep (fun h1 => absurd h1 hc))
          (by rw [hv]; omega) h
    · rename_i hne
      exact absurd h (by
        intro hc
        exact hne _ hc)

theorem orderInv_initial (alloc : Group) (len : Nat) : OrderInv (System.initial alloc len) := by
  refine ⟨indexSafe_initialized alloc len, rfl, ?_⟩
  show Ascending ((live (initialized alloc len)).map ReadCount.version) _
  rw [live_initialized]
  exact ⟨List.Pairwise.nil, fun x hx => absurd hx (List.not_mem_nil x)⟩

/-- C11. In every state reached from initialization by `start_read`, `end_read`,
`start_write` and `end_write` calls that all return, with fewer than `2^32` commits (so
`current_version` has not wrapped), the versions of the live ledger entries, read from
`get_pos` to `put_pos`, strictly increase: they are non-decreasing and no two live entries
carry the same version. -/
theorem live_versions_increase (alloc : Group) (len : Nat) (ops : List Op) (s : System)
    (hrun : (System.initial alloc len).run ops = .returned s)
    (hK : commitCount ops < UINT32_MOD) :
    ((live s.info).map ReadCount.version).Pairwise (· < ·) ∧
      ((live s.info).map ReadCount.version).Pairwise (· ≤ ·) ∧
      ((live s.info).map ReadCount.version).Nodup := by
  have hinv := orderInv_run ops _ s (orderInv_initial alloc len)
    (by
      show 0 + commitCount ops < UINT32_MOD
      omega) hrun
  have hs := hinv.2.2.1
  exact ⟨hs, hs.imp Nat.le_of_lt, hs.imp Nat.ne_of_lt⟩

/-- C11 at a concrete run: reads open at versions 0 and 1 at the end of `overlapRun`. -/
theorem live_versions_increase_witness :
    ((live ((System.initial ⟨5, 6⟩ 0).run overlapRun).state.info).map
        ReadCount.version).Pairwise (· < ·) :=
  (live_versions_increase ⟨5, 6⟩ 0 overlapRun
    ((System.initial ⟨5, 6⟩ 0).run overlapRun).state rfl (by decide)).1

/-! ## The head of the ledger -/

theorem start_read_frame {m m1 : SharedInfo} {g g1 : SharedGroup}
    (h : start_read m g = .returned (m1, g1)) :
    m1.writemutex = m.writemutex ∧
      g1 = ⟨⟨m.current_top, m.filesize⟩, m.current_version⟩ := by
  simp only [start_read] at h
  split at h
  · exact absurd h (by simp)
  · split at h
    · rename_i m2 hupd
      simp only [Outcome.returned.injEq, Prod.mk.injEq] at h
      rw [← h.1, ← h.2]
      exact ⟨(start_read_update_header hupd).2.1, rfl⟩
    · exact absurd h (by simp)
    · exact absurd h (by simp)
    · exact absurd h (by simp)

theorem end_read_frame {m m1 : SharedInfo} {g g1 : SharedGroup}
    (h : end_read m g = .returned (m1, g1)) : m1.writemutex = m.writemutex := by
  simp only [end_read] at h
  split at h
  · exact absurd h (by simp)
  · split at h
    · exact absurd h (by simp)
    · split at h
      · rename_i m2 hupd
        simp only [Outcome.returned.injEq, Prod.mk.injEq] at h
        rw [← h.1]
        exact (end_read_update_header hupd).2.1
      · exact absurd h (by simp)
      · exact absurd h (by simp)
      · exact absurd h (by simp)

theorem absorb_state_other (s : System) {h a : Nat} (o : Outcome (SharedInfo × SharedGroup))
    (hne : h ≠ a) : (s.absorb h o).state.handles a = s.handles a := by
  cases o with
  | returned p => exact Function.update_noteq (Ne.symm hne) _ _
  | aborted f p => exact Function.update_noteq (Ne.symm hne) _ _
  | blocked p => exact Function.update_noteq (Ne.symm hne) _ _
  | diverges p => exact Function.update_noteq (Ne.symm hne) _ _

/-- A call by another handle leaves handle `a` as it was, however the call ends. -/
theorem step_state_other (s : System) {op : Op} {a : Nat} (hne : op.handle ≠ a) :
    (s.step op).state.handles a = s.handles a := by
  cases op with
  | start_read k => exact absorb_state_other s _ hne
  | end_read k => exact absorb_state_other s _ hne
  | start_write k => exact absorb_state_other s _ hne
  | end_write k t z => exact absorb_state_other s _ hne

theorem run_state_other :
    ∀ (ops : List Op) (s : System) (a : Nat), (∀ op ∈ ops, op.handle ≠ a) →
      (s.run ops).state.handles a = s.handles a := by
  intro ops
  induction ops with
  | nil =>
    intro s a _
    rfl
  | cons op ops ih =>
    intro s a hne
    have hop := step_state_other s (hne op (List.mem_cons_self op ops))
    have hrest : ∀ x ∈ ops, x.handle ≠ a := fun x hx => hne x (List.mem_cons_of_mem op hx)
    cases hstep : s.step op with
    | returned s1 =>
      rw [hstep] at hop
      simp only [System.run, hstep]
      rw [ih s1 a hrest]
      exact hop
    | aborted f s1 =>
      rw [hstep] at hop
      simp only [System.run, hstep]
      exact hop
    | blocked s1 =>
      rw [hstep] at hop
      simp only [System.run, hstep]
      exact hop
    | diverges s1 =>
      rw [hstep] at hop
      simp only [System.run, hstep]
      exact hop

/-- C12. When a `start_read` of handle `a` returns, the handle holds the view
`(current_top, filesize)` and the version `current_version` that the shared record had at
the call; any later sequence of calls of other handles (commits by `start_write` and
`end_write`, reads by `start_read` and `end_read`), however its calls end, leaves that
view and that `m_version` in handle `a` at the end and at every point on the way. -/
theorem snapshot_isolation (s s1 : System) (a : Nat) (ops : List Op)
    (hstart : s.step (.start_read a) = .returned s1)
    (hothers : ∀ op ∈ ops, op.handle ≠ a) :
    s1.handles a = ⟨⟨s.info.current_top, s.info.filesize⟩, s.info.current_version⟩ ∧
      (s1.run ops).state.handles a =
        ⟨⟨s.info.current_top, s.info.filesize⟩, s.info.current_version⟩ ∧
      ∀ pre, pre <+: ops → (s1.run pre).state.handles a =
        ⟨⟨s.info.current_top, s.info.filesize⟩, s.info.current_version⟩ := by
  have hview := (start_read_frame (absorb_returned (s := s) (h := a) hstart).1).2
  refine ⟨hview, ?_, ?_⟩
  · rw [run_state_other ops s1 a hothers]
    exact hview
  · intro pre hpre
    rw [run_state_other pre s1 a (fun op hop => hothers op (hpre.subset hop))]
    exact hview

/-- C12 at a concrete run: handle 0 reads at version 0 with the view `(5, 6)`; a commit of
`(7, 8)` by handle 1 and a read by handle 2 leave handle 0 as it was. -/
theorem snapshot_isolation_witness :
    (((System.initial ⟨5, 6⟩ 0).step (.start_read 0)).state.run othersRun).state.handles 0 =
      ⟨⟨5, 6⟩, 0⟩ :=
  (snapshot_isolation (System.initial ⟨5, 6⟩ 0)
    ((System.initial ⟨5, 6⟩ 0).step (.start_read 0)).state 0 othersRun rfl
    (by decide)).2.1

/-! ## One writer at a time -/

theorem openWrites_cons (w : List Nat) (op : Op) (ops : List Op) :
    openWrites w (op :: ops) = openWrites (writersStep w op) ops := rfl

theorem openWrites_append (w : List Nat) (ops later : List Op) :
    openWrites w (ops ++ later) = openWrites (openWrites w ops) later :=
  List.foldl_append _ _ _ _

theorem run_append :
    ∀ (ops : List Op) (s s1 : System) (later : List Op), s.run ops = .returned s1 →
      s.run (ops ++ later) = s1.run later := by
  intro ops
  induction ops with
  | nil =>
    intro s s1 later h
    simp only [System.run, Outcome.returned.injEq] at h
    rw [h]
    rfl
  | cons op ops ih =>
    intro s s1 later h
    cases hstep : s.step op with
    | returned s2 =>
      simp only [System.run, hstep, List.cons_append] at h ⊢
      exact ih s2 s1 later h
    | aborted f s2 =>
      simp only [System.run, hstep] at h
      cases h
    | blocked s2 =>
      simp only [System.run, hstep] at h
      cases h
    | diverges s2 =>
      simp only [System.run, hstep] at h
      cases h

/-- A write transaction stays open as long as its handle does not call `end_write`. -/
theorem mem_openWrites {a : Nat} :
    ∀ (ops : List Op) (w : List Nat), a ∈ w → (∀ t z, Op.end_write a t z ∉ ops) →
      a ∈ openWrites w ops := by
  intro ops
  induction ops with
  | nil =>
    intro w hw _
    exact hw
  | cons op ops ih =>
    intro w hw hno
    rw [openWrites_cons]
    apply ih
    · cases op with
      | start_read k => exact hw
      | end_read k => exact hw
      | start_write k => exact List.mem_cons_of_mem k hw
      | end_write k t z =>
        have hne : a ≠ k := by
          intro hc
          exact hno t z (by rw [hc]; exact List.mem_cons_self _ _)
        exact (List.mem_erase_of_ne hne).2 hw
    · intro t z hmem
      exact hno t z (List.mem_cons_of_mem op hmem)

/-- One returned call keeps the writer invariant when an `end_write` comes from a handle
with its write transaction open. -/
theorem writeInv_step {s s1 : System} {w : List Nat} {op : Op} (hinv : WriteInv s w)
    (hstep : s.step op = .returned s1)
    (huse : ∀ k t z, op = .end_write k t z → k ∈ w) :
    WriteInv s1 (writersStep w op) := by
  obtain ⟨hiff, hlen⟩ := hinv
  cases op with
  | start_read k =>
    have hw := (start_read_frame (absorb_returned (s := s) (h := k) hstep).1).1
    exact ⟨by rw [hw]; exact hiff, hlen⟩
  | end_read k =>
    have hw := end_read_frame (absorb_returned (s := s) (h := k) hstep).1
    exact ⟨by rw [hw]; exact hiff, hlen⟩
  | start_write k =>
    have hret := (absorb_returned (s := s) (h := k) hstep).1
    have hm := (start_write_returned hret).1
    have hfree : s.info.writemutex = false := by
      cases hb : s.info.writemutex with
      | false => rfl
      | true =>
        simp only [start_write, hb, if_true] at hret
        cases hret
    have hnil : w = [] := by
      by_contra hne
      have := hiff.2 hne
      rw [hfree] at this
      cases this
    refine ⟨?_, ?_⟩
    · rw [hm]
      exact ⟨fun _ => List.cons_ne_nil _ _, fun _ => rfl⟩
    · rw [hnil]
      exact Nat.le_refl 1
  | end_write k t z =>
    have hret := (absorb_returned (s := s) (h := k) hstep).1
    have hm := (end_write_returned hret).1
    have hk := huse k t z rfl
    have hw : w = [k] := by
      match w, hlen, hk with
      | [x], _, hk1 =>
        rw [List.mem_singleton] at hk1
        rw [hk1]
    refine ⟨?_, ?_⟩
    · rw [hm, hw]
      simp [writersStep]
    · rw [hw]
      simp [writersStep]

theorem writeInv_run :
    ∀ (ops : List Op) (s s1 : System) (w : List Nat), WriteInv s w →
      bracketed w ops = true → s.run ops = .returned s1 → WriteInv s1 (openWrites w ops) := by
  intro ops
  induction ops with
  | nil =>
    intro s s1 w hinv _ h
    simp only [System.run, Outcome.returned.injEq] at h
    rw [← h]
    exact hinv
  | cons op ops ih =>
    intro s s1 w hinv hb h
    simp only [bracketed, Bool.and_eq_true] at hb
    cases hstep : s.step op with
    | returned s2 =>
      simp only [System.run, hstep] at h
      rw [openWrites_cons]
      refine ih s2 s1 _ (writeInv_step hinv hstep ?_) hb.2 h
      intro k t z hop
      have h1 := hb.1
      rw [hop] at h1
      simpa using h1
    | aborted f s2 =>
      simp only [System.run, hstep] at h
      cases h
    | blocked s2 =>
      simp only [System.run, hstep] at h
      cases h
    | diverges s2 =>
      simp only [System.run, hstep] at h
      cases h

theorem writeInv_initial (alloc : Group) (len : Nat) :
    WriteInv (System.initial alloc len) [] :=
  ⟨⟨fun h => (by cases h), fun h => absurd rfl h⟩, Nat.zero_le _⟩

/-- C13. Take any calls `ops` from initialization and any further calls `later`, all of
which return, with `end_write` called only by a handle whose write transaction is open.
At most one write transaction is open at the end, and the write mutex is held exactly when
one is. If the write transaction of handle `a` was open after `ops` and `a` has not called
`end_write` in `later`, then it is the only one open and a `start_write` of any handle `b`
does not return: it waits on the write mutex and changes nothing. Once an `end_write` of
`a` returns, the commit is published (`current_top`, `filesize` and the incremented
`current_version`), the write mutex is free, and the `start_write` of `b` returns holding
it. -/
theorem writer_mutual_exclusion (alloc : Group) (len : Nat) (ops later : List Op)
    (s s2 : System) (a b : Nat)
    (hrun : (System.initial alloc len).run ops = .returned s)
    (hlater : s.run later = .returned s2)
    (husage : bracketed [] (ops ++ later) = true) :
    (openWrites [] (ops ++ later)).length ≤ 1 ∧
    (s2.info.writemutex = true ↔ openWrites [] (ops ++ later) ≠ []) ∧
    (a ∈ openWrites [] ops → (∀ t z, Op.end_write a t z ∉ later) →
      openWrites [] (ops ++ later) = [a] ∧
      start_write s2.info (s2.handles b) = .blocked (s2.info, s2.handles b) ∧
      s2.step (.start_write b) = .blocked s2) ∧
    (∀ t z s3, s2.step (.end_write a t z) = .returned s3 →
      s3.info.current_top = t ∧ s3.info.filesize = z ∧
      s3.info.current_version = add32 s2.info.current_version 1 ∧
      s3.info.writemutex = false ∧
      ∃ g1, start_write s3.info (s3.handles b) =
        .returned ({ s3.info with writemutex := true }, g1)) := by
  have hfull : (System.initial alloc len).run (ops ++ later) = .returned s2 := by
    rw [run_append ops _ s later hrun]
    exact hlater
  obtain ⟨hiff, hlen⟩ := writeInv_run (ops ++ later) _ s2 [] (writeInv_initial alloc len)
    husage hfull
  refine ⟨hlen, hiff, ?_, ?_⟩
  · intro hopen hno
    have hmem : a ∈ openWrites [] (ops ++ later) := by
      rw [openWrites_append]
      exact mem_openWrites later _ hopen hno
    have hone : openWrites [] (ops ++ later) = [a] := by
      match hw : openWrites [] (ops ++ later), hlen, hmem with
      | [x], _, hx =>
        rw [List.mem_singleton] at hx
        rw [hx]
    have hheld : s2.info.writemutex = true := hiff.2 (by rw [hone]; exact List.cons_ne_nil _ _)
    have hblock : start_write s2.info (s2.handles b) = .blocked (s2.info, s2.handles b) := by
      simp only [start_write, hheld, if_true]
    refine ⟨hone, hblock, ?_⟩
    simp only [System.step, hblock, System.absorb]
    congr 1
    cases s2
    simp
  · intro t z s3 hstep
    have hm := (end_write_returned (absorb_returned (s := s2) (h := a) hstep).1).1
    refine ⟨by rw [hm], by rw [hm], by rw [hm], by rw [hm], ?_⟩
    exact ⟨_, by rw [start_write_spec _ _ (by rw [hm])]⟩

/-- C13 at a concrete run: handle 1 has opened a write transaction; the `start_write` of
handle 2 waits. -/
theorem writer_mutual_exclusion_witness :
    openWrites [] (writerRun ++ [.start_read 2]) = [1] ∧
      start_write (((System.initial ⟨5, 6⟩ 0).run writerRun).state.run [.start_read 2]).state.info
          ((((System.initial ⟨5, 6⟩ 0).run writerRun).state.run [.start_read 2]).state.handles 2) =
        .blocked ((((System.initial ⟨5, 6⟩ 0).run writerRun).state.run
            [.start_read 2]).state.info,
          (((System.initial ⟨5, 6⟩ 0).run writerRun).state.run [.start_read 2]).state.handles 2) :=
  let h := (writer_mutual_exclusion ⟨5, 6⟩ 0 writerRun [.start_read 2]
    ((System.initial ⟨5, 6⟩ 0).run writerRun).state
    (((System.initial ⟨5, 6⟩ 0).run writerRun).state.run [.start_read 2]).state 1 2
    rfl rfl (by decide)).2.2.1 (by decide) (by simp)
  ⟨h.1, h.2.1⟩

end tightdb
